import Mathlib

/-!
# Verification of the `pp` video-player core

Shallow embedding of the Go sources of the `pp` media-player controller
(`internal/mpv/ipc.go`, `internal/pp/app.go`, `internal/pp/timestamps.go`)
together with proofs of the behavioural properties stated in the
specification.

Conventions:
* Go `int` is modelled as `ℤ` where values can go negative (playlist
  indices, request identifiers on the wire), `ℕ` for sizes.
* Go `float64` is modelled as `ℚ`; the concrete constants appearing in the
  code (`0.5`, `0.1`, `3.0`, …) are exact in both representations.
* A fallible subprocess query (`GetFloat`, `GetString`, `GetInt`) is
  modelled by an `Option` parameter: `none` is the error case.
* Effects on the player subprocess are reified as `PCmd` values; the
  on-screen-display message (`osd`, a `show-text` command carrying no
  playback effect) is reified separately as an optional message string.
-/

namespace PP

/-- A playback command issued to the mpv subprocess through the IPC client
(the argument lists actually sent by `app.go`). -/
inductive PCmd where
  | playlistPlayIndex (i : ℤ)
  | playlistNext
  | playlistPrev
  | seekRelative (sec : ℚ)
  | seekAbsolute (sec : ℚ)
  | seekAbsolutePercent (pct : ℚ)
  | setPause (paused : Bool)
  | setSpeed (v : ℚ)
  | cyclePause
  | cycleMute
  | quit
  deriving DecidableEq, Repr

/-- The session state of the controller: the fields of Go `App`
(`app.go` lines 20–43) that the navigation and event logic reads and
writes.  The timestamp store and the last-sample triple are modelled
separately. -/
structure Session where
  playlist : List String
  index : ℤ
  continuous : Bool
  autoPlay : Bool
  resumeState : Bool
  pauseAfterLoad : Bool
  deriving DecidableEq, Repr

/-- `App.syncIndex` (`app.go` 456–461): re-query `playlist-pos` from the
subprocess; on success with a non-negative value, overwrite the local
index.  `q = none` models a failed query. -/
def syncIndex (a : Session) (q : Option ℤ) : Session :=
  match q with
  | some n => if 0 ≤ n then { a with index := n } else a
  | none => a

/-- `App.Next` (`app.go` 204–224), parametrised by the results of its two
`syncIndex` queries.  Returns the new session and the playback command
issued.  The best-effort `persistPosition` call at the top only touches
the timestamp store (modelled separately) and is not reflected here. -/
def appNext (a : Session) (q1 q2 : Option ℤ) : Session × PCmd :=
  let a1 := syncIndex a q1
  if 0 < a1.playlist.length ∧ (a1.playlist.length : ℤ) - 1 ≤ a1.index then
    let a2 := { a1 with index := 0 }
    let a3 := if a2.continuous then a2 else { a2 with pauseAfterLoad := false }
    (a3, PCmd.playlistPlayIndex 0)
  else
    let a2 := syncIndex a1 q2
    let a3 := if a2.continuous then a2 else { a2 with pauseAfterLoad := false }
    (a3, PCmd.playlistNext)

/-- `App.Prev` (`app.go` 226–247), parametrised like `appNext`. -/
def appPrev (a : Session) (q1 q2 : Option ℤ) : Session × PCmd :=
  let a1 := syncIndex a q1
  if 0 < a1.playlist.length ∧ a1.index ≤ 0 then
    let last : ℤ := (a1.playlist.length : ℤ) - 1
    let a2 := { a1 with index := last }
    let a3 := if a2.continuous then a2 else { a2 with pauseAfterLoad := false }
    (a3, PCmd.playlistPlayIndex last)
  else
    let a2 := syncIndex a1 q2
    let a3 := if a2.continuous then a2 else { a2 with pauseAfterLoad := false }
    (a3, PCmd.playlistPrev)

/-- `App.Load` (`app.go` 249–263): bounds-check, set the index, issue the
jump command.  The result's middle component is the command issued
(`none` when the bounds check fails) and the last component is the error
(`some` of the message for an out-of-range index).  The IPC command is
modelled as succeeding. -/
def appLoad (a : Session) (index : ℤ) : Session × Option PCmd × Option String :=
  if index < 0 ∨ (a.playlist.length : ℤ) ≤ index then
    (a, none, some "index out of range")
  else
    let a1 := { a with index := index }
    let a2 := if a1.continuous then a1 else { a1 with pauseAfterLoad := false }
    (a2, some (PCmd.playlistPlayIndex index), none)

/-- Association-list lookup modelling `TimestampStore.Get`
(`timestamps.go` 51–57) on the in-memory map, with offsets as `ℚ`. -/
def lookupTS (path : String) : List (String × ℚ) → Option ℚ
  | [] => none
  | (k, v) :: rest => if k = path then some v else lookupTS path rest

/-- The path used by `App.RestorePosition` (`app.go` 269–272): the
subprocess's `path` property, falling back to the playlist entry at the
current index when the query fails (`none`) or returns the empty string.
The Go code indexes `a.Playlist[a.Index]` directly (panicking out of
range); the `getD` default is only reached in that out-of-range case. -/
def resolvedPath (a : Session) (pathQ : Option String) : String :=
  match pathQ with
  | some p => if p = "" then a.playlist.getD a.index.toNat "" else p
  | none => a.playlist.getD a.index.toNat ""

/-- `App.RestorePosition` (`app.go` 265–280): with resume enabled and a
store present, look up the stored offset of the resolved path and issue
an absolute seek when it exceeds `0.5` seconds.  The result is the seek
command issued, if any.  `store = none` models `a.Timestamps == nil`. -/
def restorePosition (a : Session) (pathQ : Option String)
    (store : Option (List (String × ℚ))) : Option ℚ :=
  if !a.resumeState then none else
  match store with
  | none => none
  | some st =>
    match lookupTS (resolvedPath a pathQ) st with
    | none => none
    | some sec => if sec ≤ (1 : ℚ) / 2 then none else some sec

/-- An event record delivered by the IPC event stream, as matched by
`App.eventLoop` (`app.go` 298–333). -/
inductive PEvent where
  | endFile
  | fileLoaded
  | propertyChange (name : String) (data : Option ℤ)
  deriving DecidableEq, Repr

/-- Environment of one `eventLoop` iteration: the results of the
subprocess queries the handler may perform. -/
structure Env where
  syncQ : Option ℤ
  pathQ : Option String
  deriving DecidableEq, Repr

/-- One iteration of `App.eventLoop` (`app.go` 298–333): dispatch on the
event name and return the updated session together with the playback
commands issued (in order).  The `persistPosition`/`flushLastSample`
store writes are modelled separately. -/
def stepEvent (a : Session) (env : Env) (store : Option (List (String × ℚ))) :
    PEvent → Session × List PCmd
  | PEvent.propertyChange name data =>
    if name = "playlist-pos" then
      match data with
      | some n => if 0 ≤ n then ({ a with index := n }, []) else (a, [])
      | none => (a, [])
    else (a, [])
  | PEvent.endFile =>
    if !a.continuous && !a.autoPlay then
      ({ a with pauseAfterLoad := true }, [])
    else (a, [])
  | PEvent.fileLoaded =>
    let a1 := syncIndex a env.syncQ
    let resumeCmds := (restorePosition a1 env.pathQ store).toList.map PCmd.seekAbsolute
    let autoCmds := if a1.autoPlay then [PCmd.setPause false] else []
    if a1.pauseAfterLoad && !a1.autoPlay then
      ({ a1 with pauseAfterLoad := false },
        resumeCmds ++ autoCmds ++ [PCmd.setPause true])
    else
      (a1, resumeCmds ++ autoCmds)

/-- `App.bumpSpeed` (`app.go` 187–202), parametrised by the result of the
`speed` query (`none` = error).  Returns the speed passed to
`set_property speed` and the function's returned error (always `nil`). -/
def bumpSpeed (q : Option ℚ) (delta : ℚ) : ℚ × Option String :=
  let cur : ℚ :=
    match q with
    | some c => if c ≤ 0 then 1 else c
    | none => 1
  let n1 := cur + delta
  let n2 := if n1 < (1 : ℚ) / 10 then (1 : ℚ) / 10 else n1
  let n3 := if n2 > 3 then (3 : ℚ) else n2
  (n3, none)

/-- The effective current speed used by `bumpSpeed`: `1.0` when the query
failed or returned a non-positive value. -/
def effSpeed (q : Option ℚ) : ℚ :=
  match q with
  | some c => if c ≤ 0 then 1 else c
  | none => 1

/-- Reachable session states: any construction-time state starts with the
pause-after-load flag clear (Go zero value of `App.pauseAfterLoad`), and
the state evolves by event handling and navigation.  The construction
flags (`continuous`, `autoPlay`, `resumeState`, playlist) are fixed at
start-up and never mutated by any step. -/
inductive Reach : Session → Prop where
  | init (pl : List String) (idx : ℤ) (cont ap rs : Bool) :
      Reach ⟨pl, idx, cont, ap, rs, false⟩
  | ev (a : Session) (env : Env) (store : Option (List (String × ℚ)))
      (e : PEvent) : Reach a → Reach (stepEvent a env store e).1
  | next (a : Session) (q1 q2 : Option ℤ) : Reach a → Reach (appNext a q1 q2).1
  | prev (a : Session) (q1 q2 : Option ℤ) : Reach a → Reach (appPrev a q1 q2).1
  | load (a : Session) (i : ℤ) : Reach a → Reach (appLoad a i).1

/-! ## Command mode (`app.go` 335–432, 515–550) -/

/-- The double-quote character (written via its code point to keep string
handling uniform). -/
def dquoteChar : Char := Char.ofNat 34

/-- The single-quote character. -/
def squoteChar : Char := Char.ofNat 39

/-- The NUL character, the zero value of Go's `rune` (initial value of the
`quote` variable in `splitCmd`). -/
def nulChar : Char := Char.ofNat 0

/-- The loop of `splitCmd` (`app.go` 515–550): `inQuote`/`quote`/`cur`/
`out` are the Go locals; the final `match [] ...` case is the flush after
the loop. -/
def splitCmdAux : List Char → Bool → Char → List Char → List (List Char) →
    List (List Char)
  | [], _, _, cur, out => if cur.isEmpty then out else out ++ [cur]
  | r :: rest, inQuote, quote, cur, out =>
    if inQuote then
      if r = quote then splitCmdAux rest false quote cur out
      else splitCmdAux rest true quote (cur ++ [r]) out
    else if r = dquoteChar || r = squoteChar then
      splitCmdAux rest true r cur out
    else if r = ' ' || r = '\t' then
      if cur.isEmpty then splitCmdAux rest false quote cur out
      else splitCmdAux rest false quote [] (out ++ [cur])
    else
      splitCmdAux rest false quote (cur ++ [r]) out

/-- `splitCmd` (`app.go` 515–550): tokenize a command line with simple
single/double-quote grouping; an empty token list becomes `[""]`. -/
def splitCmd (s : String) : List String :=
  let toks := (splitCmdAux s.data false nulChar [] []).map String.mk
  if toks.isEmpty then [""] else toks

/-- Decimal digit test on a character. -/
def isDigitChar (c : Char) : Bool := 48 ≤ c.toNat && c.toNat ≤ 57

/-- Numeric value of a digit character. -/
def digitVal (c : Char) : ℕ := c.toNat - 48

/-- Fold a big-endian run of digit characters into a natural number. -/
def natFromDigitsAux : List Char → ℕ → ℕ
  | [], acc => acc
  | c :: rest, acc => natFromDigitsAux rest (acc * 10 + digitVal c)

/-- Model of Go `strconv.Atoi`: optional sign followed by a non-empty
digit run (the 64-bit overflow bound is not modelled; command-mode inputs
are small). -/
def parseIntQ (s : String) : Option ℤ :=
  match s.data with
  | [] => none
  | c :: rest =>
    let p : Bool × List Char :=
      if c = '-' then (true, rest)
      else if c = '+' then (false, rest)
      else (false, c :: rest)
    if p.2.isEmpty || !(p.2.all isDigitChar) then none
    else
      let n : ℤ := natFromDigitsAux p.2 0
      some (if p.1 then -n else n)

/-- Model of Go `strconv.ParseFloat` restricted to plain decimal notation
(optional sign, digits, at most one point, at least one digit), the forms
command-mode input uses; exponent/hex/inf forms are not modelled.  The
result is the exact rational value. -/
def parseFloatQ (s : String) : Option ℚ :=
  match s.data with
  | [] => none
  | c0 :: rest0 =>
    let p : Bool × List Char :=
      if c0 = '-' then (true, rest0)
      else if c0 = '+' then (false, rest0)
      else (false, c0 :: rest0)
    let ip := p.2.takeWhile (fun c => c ≠ '.')
    match p.2.dropWhile (fun c => c ≠ '.') with
    | [] =>
      if ip.isEmpty || !(ip.all isDigitChar) then none
      else
        let v : ℚ := (natFromDigitsAux ip 0 : ℕ)
        some (if p.1 then -v else v)
    | _ :: fp =>
      if (ip.isEmpty && fp.isEmpty) || !(ip.all isDigitChar) ||
          !(fp.all isDigitChar) then none
      else
        let v : ℚ := (natFromDigitsAux ip 0 : ℕ) +
          (natFromDigitsAux fp 0 : ℕ) / (10 : ℚ) ^ fp.length
        some (if p.1 then -v else v)

/-- ASCII lowering, modelling `strings.ToLower` on the ASCII inputs used
here. -/
def toLowerStr (s : String) : String := String.mk (s.data.map Char.toLower)

/-- Model of `filepath.Base` on the clean non-empty paths stored in the
playlist: the component after the last slash. -/
def baseName (s : String) : String :=
  String.mk ((s.data.reverse.takeWhile (fun c => c ≠ '/')).reverse)

/-- Does `hay` start with `needle`? -/
def startsWithCh : List Char → List Char → Bool
  | _, [] => true
  | [], _ :: _ => false
  | a :: as, b :: bs => a = b && startsWithCh as bs

/-- Does `hay` contain `needle` as a contiguous run? -/
def containsCh : List Char → List Char → Bool
  | [], needle => needle.isEmpty
  | a :: rest, needle => startsWithCh (a :: rest) needle || containsCh rest needle

/-- `strings.Contains`: substring containment. -/
def containsSub (hay sub : String) : Bool := containsCh hay.data sub.data

/-- The loop of `App.findBySubstring` (`app.go` 446–454). -/
def findBySubAux (ql : String) : List String → ℕ → ℤ
  | [], _ => -1
  | pth :: rest, i =>
    if containsSub (toLowerStr (baseName pth)) ql then (i : ℤ)
    else findBySubAux ql rest (i + 1)

/-- `App.findBySubstring` (`app.go` 446–454): first playlist index whose
basename contains the query, case-insensitively; `-1` if none. -/
def findBySub (pl : List String) (q : String) : ℤ :=
  findBySubAux (toLowerStr q) pl 0

/-- Whitespace test for `strings.TrimSpace` (ASCII subset as used by
command-mode input). -/
def isSpaceChar (c : Char) : Bool :=
  c = ' ' || c = '\t' || c = '\n' || c = '\r'

/-- Model of `strings.TrimSpace`. -/
def trimSpace (s : String) : String :=
  String.mk (((s.data.dropWhile isSpaceChar).reverse.dropWhile isSpaceChar).reverse)

/-- Result of one `commandMode` dispatch: updated session, playback
commands issued, user-visible message (osd or stdout; numeric osd
formatting elided to the format string), quit flag, and the error
returned to `Run` (non-nil only when `Load` fails its bounds check). -/
structure CmdResult where
  session : Session
  cmds : List PCmd
  msg : Option String
  quit : Bool
  err : Option String
  deriving DecidableEq, Repr

/-- `App.commandMode` (`app.go` 335–432) after the line has been read:
trim, tokenize, dispatch.  `navQ1`/`navQ2` are the `playlist-pos` query
results consumed by a `next`/`prev` branch. -/
def commandMode (a : Session) (navQ1 navQ2 : Option ℤ) (line : String) :
    CmdResult :=
  let line := trimSpace line
  if line = "" then ⟨a, [], none, false, none⟩
  else
    let fields := splitCmd line
    let cmd := toLowerStr (fields.headD "")
    let args := fields.tail
    if cmd = "h" ∨ cmd = "help" ∨ cmd = "?" then
      ⟨a, [], some ":ls, :open, :seek, :jump, :n, :p, :q", false, none⟩
    else if cmd = "q" ∨ cmd = "quit" ∨ cmd = "exit" then
      ⟨a, [PCmd.quit], none, true, none⟩
    else if cmd = "n" ∨ cmd = "next" then
      let r := appNext a navQ1 navQ2
      ⟨r.1, [r.2], none, false, none⟩
    else if cmd = "p" ∨ cmd = "prev" then
      let r := appPrev a navQ1 navQ2
      ⟨r.1, [r.2], none, false, none⟩
    else if cmd = "ls" ∨ cmd = "list" then
      ⟨a, [], some "files", false, none⟩
    else if cmd = "open" ∨ cmd = "o" then
      if args.isEmpty then ⟨a, [], some "open: need index or substring", false, none⟩
      else
        let target := String.intercalate " " args
        match parseIntQ target with
        | some i =>
          let r := appLoad a (i - 1)
          ⟨r.1, r.2.1.toList, none, false, r.2.2⟩
        | none =>
          let i := findBySub a.playlist target
          if i < 0 then ⟨a, [], some "not found", false, none⟩
          else
            let r := appLoad a i
            ⟨r.1, r.2.1.toList, none, false, r.2.2⟩
    else if cmd = "seek" then
      if args.length ≠ 1 then
        ⟨a, [], some "seek: usage seek +10 | -10", false, none⟩
      else
        match parseFloatQ (args.headD "") with
        | none => ⟨a, [], some "seek: invalid seconds", false, none⟩
        | some sec => ⟨a, [PCmd.seekRelative sec], some "Seek %.0fs", false, none⟩
    else if cmd = "jump" then
      if args.length ≠ 1 then
        ⟨a, [], some "jump: usage jump 50% | 120", false, none⟩
      else
        let arg := args.headD ""
        if arg.data.getLast? = some '%' then
          match parseFloatQ (String.mk arg.data.dropLast) with
          | none => ⟨a, [], some "jump: invalid percent", false, none⟩
          | some pct =>
            let pct := if pct < 0 then (0 : ℚ) else pct
            let pct := if pct > 100 then (100 : ℚ) else pct
            ⟨a, [PCmd.seekAbsolutePercent pct], some "Jump %.0f%%", false, none⟩
        else
          match parseFloatQ arg with
          | none => ⟨a, [], some "jump: invalid seconds", false, none⟩
          | some sec =>
            ⟨a, [PCmd.seekAbsolute sec], some "Jump %.0fs", false, none⟩
    else ⟨a, [], some "unknown command (try :help)", false, none⟩

end PP

namespace MPV

/-!
## The IPC transport (`ipc.go`)

The transport is modelled as a state machine over the lock-protected data
of Go `Client` (`ipc.go` 17–27).  Each `Act` is one atomic critical
section of the code: the registration half of `CommandData` (lines
157–162), one line handled by `readLoop` (lines 103–148), or a `Close`
call (lines 79–96).  Go's mutex makes these sections atomic, so every
interleaving of the concurrent code is a sequence of `Act`s.  Each step
also emits an `Obs`ervation recording what the code did (identifier
handed out, reply delivered to a waiter's channel, event queued or
dropped, …).
-/

/-- A decoded reply record (`ipc.go` 29–33). -/
structure Reply where
  requestID : ℤ
  error : String
  payload : String
  deriving DecidableEq, Repr

/-- The shared state of `Client`: `nextID` (init 1), the `pending` map
(modelled as an association list id ↦ waiter tag), the `closed` flag
(the `closed` channel), how many times `conn.Close()` has run, and the
contents of the buffered `events` channel (capacity 128). -/
structure CState where
  nextID : ℤ
  pending : List (ℤ × ℕ)
  closed : Bool
  connCloseCount : ℕ
  events : List String
  deriving DecidableEq, Repr

/-- Capacity of the `events` channel (`ipc.go` 64). -/
def eventCap : ℕ := 128

/-- State of a freshly dialed client (`ipc.go` 59–66). -/
def initState : CState := ⟨1, [], false, 0, []⟩

/-- One atomic action on the shared state. -/
inductive Act where
  | register (w : ℕ)
  | replyLine (id : ℤ) (r : Reply)
  | eventLine (name : String)
  | badLine
  | closeCall
  deriving DecidableEq, Repr

/-- What an action did. -/
inductive Obs where
  | registered (id : ℤ) (w : ℕ)
  | delivered (id : ℤ) (w : ℕ) (r : Reply)
  | droppedReply (id : ℤ)
  | eventQueued (name : String)
  | eventDropped (name : String)
  | closedNow
  | skip
  deriving DecidableEq, Repr

/-- Lookup in the pending map (`c.pending[id]`). -/
def lookupPend (id : ℤ) : List (ℤ × ℕ) → Option ℕ
  | [] => none
  | p :: rest => if p.1 = id then some p.2 else lookupPend id rest

/-- Removal from the pending map (`delete(c.pending, id)`). -/
def erasePend (id : ℤ) (l : List (ℤ × ℕ)) : List (ℤ × ℕ) :=
  l.filter (fun p => p.1 ≠ id)

/-- The transition function.  `register`: `CommandData` 157–162 allocates
`nextID`, bumps it, adds the slot.  `replyLine`: `readLoop` 115–133 looks
up the slot, deletes it, and sends on it when present.  `eventLine`:
`readLoop` 135–147, non-blocking send (`select`/`default`) on the
buffered channel.  `badLine`: `readLoop` 110–113 skips a malformed line.
`closeCall`: `Close` 79–96 under `closeOnce` — first call marks closed,
empties the pending map and closes the connection; later calls do
nothing. -/
def step (s : CState) : Act → CState × Obs
  | Act.register w =>
    ({ s with nextID := s.nextID + 1, pending := s.pending ++ [(s.nextID, w)] },
      Obs.registered s.nextID w)
  | Act.replyLine id r =>
    match lookupPend id s.pending with
    | some w => ({ s with pending := erasePend id s.pending }, Obs.delivered id w r)
    | none => ({ s with pending := erasePend id s.pending }, Obs.droppedReply id)
  | Act.eventLine name =>
    if s.events.length < eventCap then
      ({ s with events := s.events ++ [name] }, Obs.eventQueued name)
    else (s, Obs.eventDropped name)
  | Act.badLine => (s, Obs.skip)
  | Act.closeCall =>
    if s.closed then (s, Obs.skip)
    else
      ({ s with closed := true
                pending := []
                connCloseCount := s.connCloseCount + 1 }, Obs.closedNow)

/-- Run a sequence of actions, collecting the observations in order. -/
def run (s : CState) : List Act → CState × List Obs
  | [] => (s, [])
  | a :: rest =>
    let p := step s a
    let q := run p.1 rest
    (q.1, p.2 :: q.2)

/-- The identifiers currently outstanding. -/
def pendIds (s : CState) : List ℤ := s.pending.map Prod.fst

/-- The (identifier, waiter) registrations recorded in a trace. -/
def regEvents (os : List Obs) : List (ℤ × ℕ) :=
  os.filterMap fun o =>
    match o with
    | Obs.registered id w => some (id, w)
    | _ => none

/-- The identifiers allocated in a trace, in allocation order. -/
def regIds (os : List Obs) : List ℤ := (regEvents os).map Prod.fst

/-- The deliveries recorded in a trace. -/
def delivEvents (os : List Obs) : List (ℤ × ℕ) :=
  os.filterMap fun o =>
    match o with
    | Obs.delivered id w _ => some (id, w)
    | _ => none

/-- The identifiers whose reply has been delivered, in delivery order. -/
def delivIds (os : List Obs) : List ℤ := (delivEvents os).map Prod.fst

/-- The trace invariant tying the client state to the observation
history: identifiers are positive, below `nextID`, unique while
outstanding, allocated in strictly increasing order, and every delivery
went to the waiter registered for exactly that identifier and happened at
most once per identifier. -/
def Inv (s : CState) (os : List Obs) : Prop :=
  1 ≤ s.nextID ∧
  (pendIds s).Nodup ∧
  (∀ p ∈ s.pending, 1 ≤ p.1 ∧ p.1 < s.nextID ∧ p ∈ regEvents os) ∧
  List.Chain' (· < ·) (regIds os) ∧
  (∀ q ∈ regEvents os, 1 ≤ q.1 ∧ q.1 < s.nextID) ∧
  (∀ d ∈ delivEvents os, d ∈ regEvents os ∧ d.1 ∉ pendIds s) ∧
  (delivIds os).Nodup

/-- Outcome of a `CommandData` call (`ipc.go` 156–188). -/
inductive CmdOutcome where
  | ok (r : Reply)
  | cmdErr (msg : String)
  | deadlineExceeded
  | transportClosed
  | writeFailed
  deriving DecidableEq, Repr

/-- The first half of `CommandData` (`ipc.go` 157–175) run sequentially
against state `s`: register a slot, then write the request on the
connection.  A write on a connection that `Close` has already closed
fails (Go `net.Conn` contract), and `CommandData` returns that write
error at line 174 — before ever reaching the `select`.  Result: the new
state, and `some` outcome if the call returned immediately (`none` means
the request was written and the caller now blocks in the `select`). -/
def commandDataImmediate (s : CState) (w : ℕ) : CState × Option CmdOutcome :=
  let s1 := (step s (Act.register w)).1
  if s.closed then (s1, some CmdOutcome.writeFailed)
  else (s1, none)

/-- The `select` at `ipc.go` 177–187 for a blocked waiter: a buffered
reply on the waiter's own channel wins (decoded into success or
`CommandError`), else a closed transport yields `TransportClosed`
("mpv ipc closed"), else an expired deadline yields `DeadlineExceeded`;
with none of the three the caller stays blocked (`none`). -/
def selectOutcome (chContents : Option Reply) (closed : Bool)
    (deadlineHit : Bool) : Option CmdOutcome :=
  match chContents with
  | some r =>
    if r.error ≠ "success" ∧ r.error ≠ "" then some (CmdOutcome.cmdErr r.error)
    else some (CmdOutcome.ok r)
  | none =>
    if closed then some CmdOutcome.transportClosed
    else if deadlineHit then some CmdOutcome.deadlineExceeded
    else none

end MPV

namespace PP

/-!
## The timestamp store (`timestamps.go`)

`Save` serializes the path → seconds map with `json.MarshalIndent(m, "",
"  ")`, writes the bytes to `path + ".tmp"` and renames that file onto
`path`; `Load` reads the file and `json.Unmarshal`s it.  The two stdlib
calls are modelled concretely: `marshalTS` produces exactly the
`MarshalIndent` character stream for a map whose keys need no JSON
escaping (sorted keys, two-space indent) and whose values print in plain
positional decimal, and `unmarshalTS` is a parser for that stream.  The
file system is a map from path to file contents. -/

/-- A decimal literal: the value `mant / 10 ^ exps`, negated when `neg`.
This is the form in which Go prints the `float64` offsets stored by the
player (positional shortest decimal, e.g. `5`, `0.3`, `12.25`). -/
structure Dec where
  neg : Bool
  mant : ℕ
  exps : ℕ
  deriving DecidableEq, Repr

/-- The character of a decimal digit. -/
def digitChar (k : ℕ) : Char := Char.ofNat (48 + k)

/-- Big-endian digit characters of a natural number. -/
def natToDigits (n : ℕ) : List Char :=
  if n = 0 then [digitChar 0] else ((Nat.digits 10 n).map digitChar).reverse

/-- Print a `Dec` the way Go prints the corresponding float64: optional
minus sign, integer digits, and a fractional part when `exps > 0`
(zero-padded on the left when the mantissa has fewer digits than the
exponent, e.g. `0.03`). -/
def printDec (d : Dec) : List Char :=
  let ds := natToDigits d.mant
  let body :=
    if d.exps = 0 then ds
    else if d.exps < ds.length then
      ds.take (ds.length - d.exps) ++ '.' :: ds.drop (ds.length - d.exps)
    else
      digitChar 0 :: '.' :: (List.replicate (d.exps - ds.length) (digitChar 0) ++ ds)
  if d.neg then '-' :: body else body

/-- The digits-and-point part of `parseDec`, after the optional minus
sign has been consumed (`neg` records whether it was present). -/
def parseDecAfterSign (neg : Bool) (l : List Char) : Option (Dec × List Char) :=
  let ip := l.takeWhile isDigitChar
  if ip.isEmpty then none
  else
    match l.dropWhile isDigitChar with
    | c2 :: l3 =>
      if c2 = '.' then
        let fp := l3.takeWhile isDigitChar
        if fp.isEmpty then none
        else
          some (⟨neg, natFromDigitsAux (ip ++ fp) 0, fp.length⟩,
            l3.dropWhile isDigitChar)
      else some (⟨neg, natFromDigitsAux ip 0, 0⟩, c2 :: l3)
    | [] => some (⟨neg, natFromDigitsAux ip 0, 0⟩, [])

/-- Parse a decimal literal from the front of a character stream,
returning the value and the unconsumed rest (the JSON-number subset the
printer emits: optional minus, digits, optional point with digits). -/
def parseDec (l : List Char) : Option (Dec × List Char) :=
  match l with
  | c :: t =>
    if c = '-' then parseDecAfterSign true t else parseDecAfterSign false (c :: t)
  | [] => parseDecAfterSign false []

/-- The opening-brace character (`\x7b`). -/
def lbraceChar : Char := Char.ofNat 123

/-- The closing-brace character (`\x7d`). -/
def rbraceChar : Char := Char.ofNat 125

/-- Byte-wise `<` on character lists, the order in which `json.Marshal`
sorts map keys (identical to byte order on the ASCII keys used here). -/
def charsLt : List Char → List Char → Bool
  | [], [] => false
  | [], _ :: _ => true
  | _ :: _, [] => false
  | a :: as, b :: bs =>
    if a.toNat < b.toNat then true
    else if b.toNat < a.toNat then false
    else charsLt as bs

/-- Key order used when marshalling. -/
def keyLt (a b : String) : Bool := charsLt a.data b.data

/-- Insertion step of the key sort. -/
def insertEntry (e : String × Dec) : List (String × Dec) → List (String × Dec)
  | [] => [e]
  | f :: rest => if keyLt f.1 e.1 then f :: insertEntry e rest else e :: f :: rest

/-- Sort the entries by key, as `json.Marshal` does for maps. -/
def sortEntries : List (String × Dec) → List (String × Dec)
  | [] => []
  | e :: rest => insertEntry e (sortEntries rest)

/-- One marshalled entry: two spaces of indent, the quoted key, a colon
and space, the value. -/
def printEntry (e : String × Dec) : List Char :=
  ' ' :: ' ' :: dquoteChar :: (e.1.data ++ dquoteChar :: ':' :: ' ' :: printDec e.2)

/-- Marshalled entries joined by `,` and newline. -/
def printEntries : List (String × Dec) → List Char
  | [] => []
  | [e] => printEntry e
  | e :: f :: rest => printEntry e ++ ',' :: '\n' :: printEntries (f :: rest)

/-- The `json.MarshalIndent(m, "", "  ")` character stream for the
timestamp map: braces only for the empty map, otherwise one indented
`key: value` line per key in sorted order. -/
def marshalTS (m : List (String × Dec)) : List Char :=
  let sm := sortEntries m
  if sm.isEmpty then [lbraceChar, rbraceChar]
  else lbraceChar :: '\n' :: (printEntries sm ++ '\n' :: rbraceChar :: [])

/-- Consume an expected literal prefix. -/
def expectChars : List Char → List Char → Option (List Char)
  | [], l => some l
  | _ :: _, [] => none
  | c :: cs, x :: xs => if x = c then expectChars cs xs else none

/-- Is `c` anything but the closing double quote of a key? -/
def notDQ (c : Char) : Bool := c ≠ dquoteChar

/-- Parse one marshalled entry. -/
def parseEntry (l : List Char) : Option ((String × Dec) × List Char) :=
  match expectChars [' ', ' ', dquoteChar] l with
  | none => none
  | some l1 =>
    let key := l1.takeWhile notDQ
    match expectChars [dquoteChar, ':', ' '] (l1.dropWhile notDQ) with
    | none => none
    | some l3 =>
      match parseDec l3 with
      | none => none
      | some (d, l4) => some ((String.mk key, d), l4)

/-- Parse separated entries (fuel-bounded recursion; one fuel per
entry). -/
def parseEntriesAux : ℕ → List Char → Option (List (String × Dec) × List Char)
  | 0, _ => none
  | fuel + 1, l =>
    match parseEntry l with
    | none => none
    | some (e, l1) =>
      match l1 with
      | c1 :: c2 :: l2 =>
        if c1 = ',' ∧ c2 = '\n' then
          (parseEntriesAux fuel l2).map (fun p => (e :: p.1, p.2))
        else some ([e], c1 :: c2 :: l2)
      | _ => some ([e], l1)

/-- The `json.Unmarshal` direction on the streams the marshaller emits. -/
def unmarshalTS (l : List Char) : Option (List (String × Dec)) :=
  if l = [lbraceChar, rbraceChar] then some []
  else
    match l with
    | c :: nl :: rest =>
      if c = lbraceChar ∧ nl = '\n' then
        match parseEntriesAux (rest.length + 1) rest with
        | some (es, lend) =>
          if lend = ['\n', rbraceChar] then some es else none
        | none => none
      else none
    | _ => none

/-- A key character that `json.Marshal` emits verbatim (printable ASCII,
not a quote or backslash, and not one of the HTML-escaped `<`, `>`,
`&`). -/
def plainCharB (c : Char) : Bool :=
  32 ≤ c.toNat && c.toNat < 127 && c ≠ dquoteChar && c ≠ '\\' &&
    c ≠ '<' && c ≠ '>' && c ≠ '&'

/-- Well-formed in-memory map: keys strictly sorted (the canonical
association-list representation of a Go map, matching marshalling
order) and made of plain characters. -/
def WFentries (m : List (String × Dec)) : Prop :=
  List.Chain' (fun a b => keyLt a.1 b.1 = true) m ∧
    ∀ e ∈ m, ∀ c ∈ e.1.data, plainCharB c = true

/-- `TimestampStore` (`timestamps.go` 9–12): backing path (empty means
in-memory only) and the map. -/
structure TimestampStore where
  path : String
  m : List (String × Dec)

/-- A file system: path → contents. -/
def FS : Type := String → Option (List Char)

/-- `os.WriteFile`. -/
def writeFS (fs : FS) (p : String) (content : List Char) : FS :=
  fun q => if q = p then some content else fs q

/-- `os.Rename src dst`: the destination now holds the source's content
and the source is gone. -/
def renameFS (fs : FS) (src dst : String) : FS :=
  fun q => if q = dst then fs src else if q = src then none else fs q

/-- `TimestampStore.Save` (`timestamps.go` 36–49): no-op without a
backing path; otherwise marshal the map, write it to the sibling `.tmp`
file, and rename that over the target.  (`MarshalIndent` cannot fail on
this data; the write is modelled as succeeding — the claim is about a
successful save.) -/
def TimestampStore.save (t : TimestampStore) (fs : FS) : FS :=
  if t.path = "" then fs
  else renameFS (writeFS fs (t.path ++ ".tmp") (marshalTS t.m))
    (t.path ++ ".tmp") t.path

/-- `NewTimestampStore(path)` followed by `Load()` (`timestamps.go`
14–34): a missing file or a parse failure leaves the fresh store's
empty map. -/
def TimestampStore.load (path : String) (fs : FS) : TimestampStore :=
  match fs path with
  | none => ⟨path, []⟩
  | some b =>
    match unmarshalTS b with
    | some m => ⟨path, m⟩
    | none => ⟨path, []⟩

end PP

/-! # Theorems -/

namespace PP

theorem digitVal_digitChar (k : ℕ) (hk : k < 10) : digitVal (digitChar k) = k := by
  interval_cases k <;> rfl

theorem isDigitChar_digitChar (k : ℕ) (hk : k < 10) :
    isDigitChar (digitChar k) = true := by
  interval_cases k <;> rfl

theorem natToDigits_all_digits (n : ℕ) :
    ∀ c ∈ natToDigits n, isDigitChar c = true := by
  unfold natToDigits
  split_ifs with h
  · intro c hc
    simp only [List.mem_singleton] at hc
    subst hc
    rfl
  · intro c hc
    rw [List.mem_reverse] at hc
    obtain ⟨k, hk, rfl⟩ := List.mem_map.mp hc
    exact isDigitChar_digitChar k (Nat.digits_lt_base (by norm_num) hk)

theorem natToDigits_ne_nil (n : ℕ) : natToDigits n ≠ [] := by
  unfold natToDigits
  split_ifs with h
  · simp
  · simp [Nat.digits_ne_nil_iff_ne_zero.mpr h]

theorem natFromDigitsAux_append (l1 l2 : List Char) (acc : ℕ) :
    natFromDigitsAux (l1 ++ l2) acc = natFromDigitsAux l2 (natFromDigitsAux l1 acc) := by
  induction l1 generalizing acc with
  | nil => rfl
  | cons c t ih =>
    simp only [List.cons_append, natFromDigitsAux]
    exact ih _

theorem natFromDigitsAux_zeros (zs : List Char) (h : ∀ c ∈ zs, c = digitChar 0) :
    natFromDigitsAux zs 0 = 0 := by
  induction zs with
  | nil => rfl
  | cons c t ih =>
    have hc : c = digitChar 0 := h c (List.mem_cons_self c t)
    subst hc
    show natFromDigitsAux t (0 * 10 + digitVal (digitChar 0)) = 0
    have : 0 * 10 + digitVal (digitChar 0) = 0 := rfl
    rw [this]
    exact ih (fun c hc => h c (List.mem_cons_of_mem _ hc))

theorem natFrom_rev_map (ds : List ℕ) (h : ∀ d ∈ ds, d < 10) :
    natFromDigitsAux ((ds.map digitChar).reverse) 0 = Nat.ofDigits 10 ds := by
  induction ds with
  | nil => rfl
  | cons d rest ih =>
    rw [List.map_cons, List.reverse_cons, natFromDigitsAux_append]
    show natFromDigitsAux _ 0 * 10 + digitVal (digitChar d) = _
    rw [ih (fun x hx => h x (List.mem_cons_of_mem _ hx)),
      digitVal_digitChar d (h d (List.mem_cons_self d rest)),
      Nat.ofDigits_cons]
    ring

theorem natFromDigitsAux_natToDigits (n : ℕ) :
    natFromDigitsAux (natToDigits n) 0 = n := by
  unfold natToDigits
  split_ifs with h
  · rw [h]; rfl
  · rw [natFrom_rev_map _ (fun d hd => Nat.digits_lt_base (by norm_num) hd),
      Nat.ofDigits_digits]

theorem takeWhile_append_of (p : Char → Bool) (ds rest : List Char)
    (hds : ∀ c ∈ ds, p c = true)
    (hrest : ∀ c, rest.head? = some c → p c = false) :
    (ds ++ rest).takeWhile p = ds ∧ (ds ++ rest).dropWhile p = rest := by
  induction ds with
  | nil =>
    simp only [List.nil_append]
    cases rest with
    | nil => exact ⟨rfl, rfl⟩
    | cons c t =>
      have hc := hrest c rfl
      simp [List.takeWhile_cons, List.dropWhile_cons, hc]
  | cons c t ih =>
    have hc : p c = true := hds c (List.mem_cons_self c t)
    have iht := ih (fun x hx => hds x (List.mem_cons_of_mem _ hx))
    simp [List.cons_append, List.takeWhile_cons, List.dropWhile_cons, hc,
      iht.1, iht.2]

end PP


namespace PP

theorem syncIndex_playlist (a : Session) (q : Option ℤ) :
    (syncIndex a q).playlist = a.playlist := by
  unfold syncIndex; cases q with
  | none => rfl
  | some n => by_cases h : 0 ≤ n <;> simp [h]

theorem syncIndex_continuous (a : Session) (q : Option ℤ) :
    (syncIndex a q).continuous = a.continuous := by
  unfold syncIndex; cases q with
  | none => rfl
  | some n => by_cases h : 0 ≤ n <;> simp [h]

theorem syncIndex_autoPlay (a : Session) (q : Option ℤ) :
    (syncIndex a q).autoPlay = a.autoPlay := by
  unfold syncIndex; cases q with
  | none => rfl
  | some n => by_cases h : 0 ≤ n <;> simp [h]

theorem syncIndex_resumeState (a : Session) (q : Option ℤ) :
    (syncIndex a q).resumeState = a.resumeState := by
  unfold syncIndex; cases q with
  | none => rfl
  | some n => by_cases h : 0 ≤ n <;> simp [h]

theorem syncIndex_pauseAfterLoad (a : Session) (q : Option ℤ) :
    (syncIndex a q).pauseAfterLoad = a.pauseAfterLoad := by
  unfold syncIndex; cases q with
  | none => rfl
  | some n => by_cases h : 0 ≤ n <;> simp [h]

/-- C10: `bumpSpeed` sets the speed to the current speed plus the delta,
clamped to the interval `[0.1, 3.0]`; the current speed is taken to be
`1.0` when the query fails or returns a non-positive value, and the
function always returns a nil error. -/
theorem bumpSpeed_clamped (q : Option ℚ) (delta : ℚ) :
    (bumpSpeed q delta).1 = min 3 (max ((1 : ℚ) / 10) (effSpeed q + delta)) ∧
    (1 : ℚ) / 10 ≤ (bumpSpeed q delta).1 ∧ (bumpSpeed q delta).1 ≤ 3 ∧
    (bumpSpeed q delta).2 = none := by
  have h1 : (bumpSpeed q delta).1 =
      min 3 (max ((1 : ℚ) / 10) (effSpeed q + delta)) := by
    unfold bumpSpeed effSpeed
    cases q with
    | none =>
      simp only [min_def, max_def]
      split_ifs <;> linarith
    | some c =>
      by_cases hc : c ≤ 0 <;>
        · simp only [hc, if_true, if_false, min_def, max_def]
          split_ifs <;> linarith
  refine ⟨h1, ?_, ?_, rfl⟩
  · rw [h1]; exact le_min (by norm_num) (le_max_left _ _)
  · rw [h1]; exact min_le_left _ _

/-- C4 counterexample: with continuous/auto-advance DISABLED, a 3-item
playlist at the last index still wraps — `Next` issues the explicit
jump-to-index-0 command, not the "move to adjacent entry" command the
claim prescribes for that case. -/
theorem appNext_wraps_without_continuous :
    (appNext ⟨["a", "b", "c"], 2, false, false, false, false⟩ none none).2 =
      PCmd.playlistPlayIndex 0 ∧
    PCmd.playlistPlayIndex 0 ≠ PCmd.playlistNext := by
  constructor
  · rfl
  · intro h; cases h

/-- C4 (amended): `Next`/`Prev` wrap at the playlist boundary by issuing
an explicit jump-to-index command regardless of the continuous flag (the
code never consults it for this decision); away from the boundary they
issue the "move to adjacent entry, no error if none" command; in
particular the 3-item examples with auto-advance enabled hold. -/
theorem appNext_appPrev_wraparound :
    (∀ (a : Session) (q1 q2 : Option ℤ),
      ((0 < (syncIndex a q1).playlist.length ∧
          ((syncIndex a q1).playlist.length : ℤ) - 1 ≤ (syncIndex a q1).index) →
        (appNext a q1 q2).2 = PCmd.playlistPlayIndex 0 ∧
          (appNext a q1 q2).1.index = 0) ∧
      (¬(0 < (syncIndex a q1).playlist.length ∧
          ((syncIndex a q1).playlist.length : ℤ) - 1 ≤ (syncIndex a q1).index) →
        (appNext a q1 q2).2 = PCmd.playlistNext)) ∧
    (∀ (a : Session) (q1 q2 : Option ℤ),
      ((0 < (syncIndex a q1).playlist.length ∧ (syncIndex a q1).index ≤ 0) →
        (appPrev a q1 q2).2 =
          PCmd.playlistPlayIndex (((syncIndex a q1).playlist.length : ℤ) - 1) ∧
          (appPrev a q1 q2).1.index =
            ((syncIndex a q1).playlist.length : ℤ) - 1) ∧
      (¬(0 < (syncIndex a q1).playlist.length ∧ (syncIndex a q1).index ≤ 0) →
        (appPrev a q1 q2).2 = PCmd.playlistPrev)) ∧
    (appNext ⟨["a", "b", "c"], 2, true, false, false, false⟩ none none).1.index = 0 ∧
    (appPrev ⟨["a", "b", "c"], 0, true, false, false, false⟩ none none).1.index = 2 := by
  refine ⟨?_, ?_, rfl, rfl⟩
  · intro a q1 q2
    constructor
    · intro h
      unfold appNext
      rw [if_pos h]
      constructor
      · rfl
      · by_cases hc : (syncIndex a q1).continuous <;> simp [hc]
    · intro h
      unfold appNext
      rw [if_neg h]
  · intro a q1 q2
    constructor
    · intro h
      unfold appPrev
      rw [if_pos h]
      constructor
      · rfl
      · by_cases hc : (syncIndex a q1).continuous <;> simp [hc]
    · intro h
      unfold appPrev
      rw [if_neg h]

/-- C6: on file-loaded with resume enabled, the controller resolves the
current path (falling back to the playlist entry at the current index
when the query fails or is empty) and issues an absolute seek to the
stored offset exactly when one is stored and exceeds the `0.5` s
threshold; a stored `0.3` s triggers no seek, a stored `5.0` s does. -/
theorem restorePosition_threshold :
    (∀ (a : Session) (pathQ : Option String) (st : List (String × ℚ)) (s : ℚ),
      a.resumeState = true →
      (restorePosition a pathQ (some st) = some s ↔
        lookupTS (resolvedPath a pathQ) st = some s ∧ (1 : ℚ) / 2 < s)) ∧
    (∀ a : Session, resolvedPath a none = a.playlist.getD a.index.toNat "") ∧
    (∀ a : Session, resolvedPath a (some "") = a.playlist.getD a.index.toNat "") ∧
    (∀ (a : Session) (p : String), p ≠ "" → resolvedPath a (some p) = p) ∧
    restorePosition ⟨["a"], 0, false, false, true, false⟩ (some "a")
      (some [("a", 3 / 10)]) = none ∧
    restorePosition ⟨["a"], 0, false, false, true, false⟩ (some "a")
      (some [("a", 5)]) = some 5 := by
  refine ⟨?_, fun a => rfl, ?_, ?_, ?_, ?_⟩
  · intro a pathQ st s h
    unfold restorePosition
    rw [h]
    simp only [Bool.not_true, Bool.false_eq_true, if_false]
    cases hl : lookupTS (resolvedPath a pathQ) st with
    | none => simp
    | some sec =>
      simp only [Option.some.injEq]
      split_ifs with hs
      · constructor
        · intro h'; cases h'
        · rintro ⟨rfl, h2⟩; linarith
      · constructor
        · intro h'
          have h2 : sec = s := Option.some.inj h'
          exact ⟨h2, h2 ▸ lt_of_not_le hs⟩
        · rintro ⟨rfl, _⟩; rfl
  · intro a; rfl
  · intro a p hp
    simp only [resolvedPath]
    rw [if_neg hp]
  · norm_num [restorePosition, lookupTS, resolvedPath]
  · norm_num [restorePosition, lookupTS, resolvedPath]

/-- C6 witness: the resume-seek characterisation applied at a concrete
session, resolving the path through the non-empty query branch. -/
theorem restorePosition_threshold_witness :
    (⟨["a"], 0, false, false, true, false⟩ : Session).resumeState = true ∧
    restorePosition ⟨["a"], 0, false, false, true, false⟩ (some "b")
      (some [("b", 7)]) = some 7 ∧
    ("b" : String) ≠ "" ∧
    resolvedPath ⟨["a"], 0, false, false, true, false⟩ (some "b") = "b" :=
  ⟨rfl,
    (restorePosition_threshold.1 ⟨["a"], 0, false, false, true, false⟩
      (some "b") [("b", 7)] 7 rfl).mpr ⟨rfl, by norm_num⟩,
    by decide,
    restorePosition_threshold.2.2.2.1 ⟨["a"], 0, false, false, true, false⟩
      "b" (by decide)⟩

theorem appNext_preserves (a : Session) (q1 q2 : Option ℤ) :
    (appNext a q1 q2).1.autoPlay = a.autoPlay ∧
    ((appNext a q1 q2).1.pauseAfterLoad = false ∨
      (appNext a q1 q2).1.pauseAfterLoad = a.pauseAfterLoad) := by
  unfold appNext
  dsimp only
  split_ifs <;> simp [syncIndex_autoPlay, syncIndex_pauseAfterLoad]

theorem appPrev_preserves (a : Session) (q1 q2 : Option ℤ) :
    (appPrev a q1 q2).1.autoPlay = a.autoPlay ∧
    ((appPrev a q1 q2).1.pauseAfterLoad = false ∨
      (appPrev a q1 q2).1.pauseAfterLoad = a.pauseAfterLoad) := by
  unfold appPrev
  dsimp only
  split_ifs <;> simp [syncIndex_autoPlay, syncIndex_pauseAfterLoad]

theorem appLoad_preserves (a : Session) (i : ℤ) :
    (appLoad a i).1.autoPlay = a.autoPlay ∧
    ((appLoad a i).1.pauseAfterLoad = false ∨
      (appLoad a i).1.pauseAfterLoad = a.pauseAfterLoad) := by
  unfold appLoad
  dsimp only
  split_ifs <;> simp

theorem stepEvent_preserves (a : Session) (env : Env)
    (store : Option (List (String × ℚ))) (e : PEvent) :
    (stepEvent a env store e).1.autoPlay = a.autoPlay ∧
    ((stepEvent a env store e).1.pauseAfterLoad = false ∨
      (stepEvent a env store e).1.pauseAfterLoad = a.pauseAfterLoad ∨
      a.autoPlay = false) := by
  cases e with
  | propertyChange name data =>
    unfold stepEvent
    dsimp only
    split_ifs with h1
    · cases data with
      | none => simp
      | some n =>
        dsimp only
        split_ifs <;> simp
    · cases data <;> simp
  | endFile =>
    unfold stepEvent
    dsimp only
    split_ifs with h1
    · have := Bool.and_eq_true _ _ |>.mp h1
      simp_all
    · simp
  | fileLoaded =>
    unfold stepEvent
    dsimp only
    split_ifs <;> simp [syncIndex_autoPlay, syncIndex_pauseAfterLoad]

/-- C5: with continuous auto-advance and autoplay both disabled,
end-of-file arms the pause-after-next-load flag and the next file-loaded
consumes it and issues a pause command; with autoplay enabled every
file-loaded forces playback to resume, and the flag is false in every
reachable state of an autoplay session. -/
theorem eventLoop_autopause :
    (∀ (a : Session) (env : Env) (store : Option (List (String × ℚ))),
      a.continuous = false → a.autoPlay = false →
      (stepEvent a env store PEvent.endFile).1.pauseAfterLoad = true ∧
      (stepEvent a env store PEvent.endFile).2 = []) ∧
    (∀ (a : Session) (env : Env) (store : Option (List (String × ℚ))),
      a.pauseAfterLoad = true → a.autoPlay = false →
      PCmd.setPause true ∈ (stepEvent a env store PEvent.fileLoaded).2 ∧
      (stepEvent a env store PEvent.fileLoaded).1.pauseAfterLoad = false) ∧
    (∀ (a : Session) (env : Env) (store : Option (List (String × ℚ))),
      a.autoPlay = true →
      PCmd.setPause false ∈ (stepEvent a env store PEvent.fileLoaded).2) ∧
    (∀ a : Session, Reach a → a.autoPlay = true → a.pauseAfterLoad = false) := by
  refine ⟨?_, ?_, ?_, ?_⟩
  · intro a env store hc ha
    simp [stepEvent, hc, ha]
  · intro a env store hp ha
    simp [stepEvent, syncIndex_pauseAfterLoad, syncIndex_autoPlay, hp, ha]
  · intro a env store ha
    simp [stepEvent, syncIndex_pauseAfterLoad, syncIndex_autoPlay, ha]
  · intro a hr
    induction hr with
    | init pl idx cont ap rs => intro _; rfl
    | ev a env store e _ ih =>
      intro h'
      obtain ⟨hap, hdis⟩ := stepEvent_preserves a env store e
      rw [hap] at h'
      rcases hdis with h1 | h1 | h1
      · exact h1
      · rw [h1]; exact ih h'
      · rw [h1] at h'; cases h'
    | next a q1 q2 _ ih =>
      intro h'
      obtain ⟨hap, hdis⟩ := appNext_preserves a q1 q2
      rw [hap] at h'
      rcases hdis with h1 | h1
      · exact h1
      · rw [h1]; exact ih h'
    | prev a q1 q2 _ ih =>
      intro h'
      obtain ⟨hap, hdis⟩ := appPrev_preserves a q1 q2
      rw [hap] at h'
      rcases hdis with h1 | h1
      · exact h1
      · rw [h1]; exact ih h'
    | load a i _ ih =>
      intro h'
      obtain ⟨hap, hdis⟩ := appLoad_preserves a i
      rw [hap] at h'
      rcases hdis with h1 | h1
      · exact h1
      · rw [h1]; exact ih h'

/-- C5 witness: the arm/consume cycle on a concrete non-continuous,
non-autoplay session, the forced resume on a concrete autoplay session,
and the invariant at a concrete reachable autoplay state. -/
theorem eventLoop_autopause_witness :
    (stepEvent ⟨["a"], 0, false, false, false, false⟩ ⟨none, none⟩ none
      PEvent.endFile).1.pauseAfterLoad = true ∧
    PCmd.setPause true ∈ (stepEvent ⟨["a"], 0, false, false, false, true⟩
      ⟨none, none⟩ none PEvent.fileLoaded).2 ∧
    PCmd.setPause false ∈ (stepEvent ⟨["a"], 0, false, true, false, false⟩
      ⟨none, none⟩ none PEvent.fileLoaded).2 ∧
    (⟨["a"], 0, false, true, false, false⟩ : Session).pauseAfterLoad = false :=
  ⟨(eventLoop_autopause.1 ⟨["a"], 0, false, false, false, false⟩ ⟨none, none⟩
      none rfl rfl).1,
    (eventLoop_autopause.2.1 ⟨["a"], 0, false, false, false, true⟩ ⟨none, none⟩
      none rfl rfl).1,
    eventLoop_autopause.2.2.1 ⟨["a"], 0, false, true, false, false⟩ ⟨none, none⟩
      none rfl,
    eventLoop_autopause.2.2.2 ⟨["a"], 0, false, true, false, false⟩
      (Reach.init ["a"] 0 false true false) rfl⟩

/-- C4 witness: the amended wrap/no-wrap dichotomy instantiated on a
3-item playlist at the boundary and in the middle. -/
theorem appNext_appPrev_wraparound_witness :
    (appNext ⟨["a", "b", "c"], 2, true, false, false, false⟩ none none).2 =
      PCmd.playlistPlayIndex 0 ∧
    (appNext ⟨["a", "b", "c"], 1, true, false, false, false⟩ none none).2 =
      PCmd.playlistNext ∧
    (appPrev ⟨["a", "b", "c"], 0, true, false, false, false⟩ none none).2 =
      PCmd.playlistPlayIndex 2 ∧
    (appPrev ⟨["a", "b", "c"], 1, true, false, false, false⟩ none none).2 =
      PCmd.playlistPrev :=
  ⟨((appNext_appPrev_wraparound.1 ⟨["a", "b", "c"], 2, true, false, false, false⟩
      none none).1 (by constructor <;> decide)).1,
    (appNext_appPrev_wraparound.1 ⟨["a", "b", "c"], 1, true, false, false, false⟩
      none none).2 (by decide),
    ((appNext_appPrev_wraparound.2.1 ⟨["a", "b", "c"], 0, true, false, false, false⟩
      none none).1 (by constructor <;> decide)).1,
    (appNext_appPrev_wraparound.2.1 ⟨["a", "b", "c"], 1, true, false, false, false⟩
      none none).2 (by decide)⟩

theorem splitCmdAux_spaces (l : List Char) (q : Char) (out : List (List Char))
    (h : ∀ c ∈ l, c = ' ' ∨ c = '\t') :
    splitCmdAux l false q [] out = out := by
  induction l generalizing out with
  | nil => rfl
  | cons c rest ih =>
    rcases h c (List.mem_cons_self c rest) with rfl | rfl
    · exact ih out (fun c hc => h c (List.mem_cons_of_mem _ hc))
    · exact ih out (fun c hc => h c (List.mem_cons_of_mem _ hc))

/-- C9: `splitCmd` never returns an empty token list (an empty or
all-whitespace line yields the single empty token, so dispatch never
indexes an empty slice); quoted runs become single tokens with the
quotes stripped, and unquoted spaces and tabs separate tokens. -/
theorem splitCmd_safe :
    (∀ s : String, splitCmd s ≠ []) ∧
    (∀ s : String, (∀ c ∈ s.data, c = ' ' ∨ c = '\t') → splitCmd s = [""]) ∧
    splitCmd "open a b" = ["open", "a", "b"] ∧
    splitCmd ("open " ++
      String.mk (dquoteChar :: 'a' :: ' ' :: 'b' :: dquoteChar :: []) ++
      " c") = ["open", "a b", "c"] ∧
    splitCmd (String.mk (squoteChar :: 'x' :: ' ' :: '\t' :: 'y' ::
      squoteChar :: [])) = ["x \ty"] := by
  refine ⟨?_, ?_, by decide, by decide, by decide⟩
  · intro s
    unfold splitCmd
    dsimp only
    split_ifs with h
    · simp
    · intro hc
      rw [hc] at h
      simp at h
  · intro s hs
    unfold splitCmd
    rw [splitCmdAux_spaces s.data nulChar [] hs]
    rfl

/-- C9 witness: non-emptiness applied to a concrete line and the
whitespace-only law applied to a two-space line. -/
theorem splitCmd_safe_witness :
    splitCmd "open 2" ≠ [] ∧ splitCmd "  " = [""] :=
  ⟨splitCmd_safe.1 "open 2", splitCmd_safe.2.1 "  " (by decide)⟩

/-- C7: command-mode `seek` and `jump` issue a subprocess command exactly
for well-formed numeric (for `jump`, optionally percent-suffixed)
arguments and reject malformed input with a message and no command;
`jump` percentages are clamped to `[0, 100]` (so `jump 150%` becomes
100); `open 2` loads playlist index 1 and `open abc` with no matching
substring reports "not found" and issues no command. -/
theorem commandMode_parsing :
    (∀ (a : Session) (q1 q2 : Option ℤ) (line arg : String),
      trimSpace line ≠ "" → splitCmd (trimSpace line) = ["seek", arg] →
      (∀ s : ℚ, parseFloatQ arg = some s →
        commandMode a q1 q2 line =
          ⟨a, [PCmd.seekRelative s], some "Seek %.0fs", false, none⟩) ∧
      (parseFloatQ arg = none →
        commandMode a q1 q2 line =
          ⟨a, [], some "seek: invalid seconds", false, none⟩)) ∧
    (∀ (a : Session) (q1 q2 : Option ℤ) (line arg : String),
      trimSpace line ≠ "" → splitCmd (trimSpace line) = ["jump", arg] →
      (arg.data.getLast? = some '%' →
        (∀ p : ℚ, parseFloatQ (String.mk arg.data.dropLast) = some p →
          commandMode a q1 q2 line =
            ⟨a, [PCmd.seekAbsolutePercent (min 100 (max 0 p))],
              some "Jump %.0f%%", false, none⟩) ∧
        (parseFloatQ (String.mk arg.data.dropLast) = none →
          commandMode a q1 q2 line =
            ⟨a, [], some "jump: invalid percent", false, none⟩)) ∧
      (arg.data.getLast? ≠ some '%' →
        (∀ s : ℚ, parseFloatQ arg = some s →
          commandMode a q1 q2 line =
            ⟨a, [PCmd.seekAbsolute s], some "Jump %.0fs", false, none⟩) ∧
        (parseFloatQ arg = none →
          commandMode a q1 q2 line =
            ⟨a, [], some "jump: invalid seconds", false, none⟩))) ∧
    (∀ p : ℚ, 0 ≤ min 100 (max 0 p) ∧ min 100 (max 0 p) ≤ 100) ∧
    commandMode ⟨["one.mp4", "two.mp4", "three.mp4"], 0, false, false, false,
      false⟩ none none "seek +30" =
      ⟨⟨["one.mp4", "two.mp4", "three.mp4"], 0, false, false, false, false⟩,
        [PCmd.seekRelative 30], some "Seek %.0fs", false, none⟩ ∧
    commandMode ⟨["one.mp4", "two.mp4", "three.mp4"], 0, false, false, false,
      false⟩ none none "jump 150%" =
      ⟨⟨["one.mp4", "two.mp4", "three.mp4"], 0, false, false, false, false⟩,
        [PCmd.seekAbsolutePercent 100], some "Jump %.0f%%", false, none⟩ ∧
    commandMode ⟨["one.mp4", "two.mp4", "three.mp4"], 0, false, false, false,
      false⟩ none none "open 2" =
      ⟨⟨["one.mp4", "two.mp4", "three.mp4"], 1, false, false, false, false⟩,
        [PCmd.playlistPlayIndex 1], none, false, none⟩ ∧
    commandMode ⟨["one.mp4", "two.mp4", "three.mp4"], 0, false, false, false,
      false⟩ none none "open abc" =
      ⟨⟨["one.mp4", "two.mp4", "three.mp4"], 0, false, false, false, false⟩,
        [], some "not found", false, none⟩ := by
  refine ⟨?_, ?_, ?_, by decide, by decide, by decide, by decide⟩
  · intro a q1 q2 line arg h1 hf
    have hcm : commandMode a q1 q2 line =
        (match parseFloatQ arg with
        | none => ⟨a, [], some "seek: invalid seconds", false, none⟩
        | some sec =>
          ⟨a, [PCmd.seekRelative sec], some "Seek %.0fs", false, none⟩) := by
      unfold commandMode
      dsimp only
      rw [if_neg h1, hf]
      rfl
    constructor
    · intro s hp; rw [hcm, hp]
    · intro hp; rw [hcm, hp]
  · intro a q1 q2 line arg h1 hf
    have hclamp : ∀ p : ℚ,
        (if (if p < 0 then (0 : ℚ) else p) > 100 then (100 : ℚ)
          else if p < 0 then (0 : ℚ) else p) = min 100 (max 0 p) := by
      intro p
      simp only [min_def, max_def]
      split_ifs <;> linarith
    have hcm : commandMode a q1 q2 line =
        (if arg.data.getLast? = some '%' then
          match parseFloatQ (String.mk arg.data.dropLast) with
          | none => ⟨a, [], some "jump: invalid percent", false, none⟩
          | some pct =>
            ⟨a, [PCmd.seekAbsolutePercent
              (if (if pct < 0 then (0 : ℚ) else pct) > 100 then (100 : ℚ)
                else if pct < 0 then (0 : ℚ) else pct)],
              some "Jump %.0f%%", false, none⟩
        else
          match parseFloatQ arg with
          | none => ⟨a, [], some "jump: invalid seconds", false, none⟩
          | some sec =>
            ⟨a, [PCmd.seekAbsolute sec], some "Jump %.0fs", false, none⟩) := by
      unfold commandMode
      dsimp only
      rw [if_neg h1, hf]
      rfl
    constructor
    · intro hs
      rw [hcm, if_pos hs]
      constructor
      · intro p hp
        rw [hp]
        dsimp only
        rw [hclamp p]
      · intro hp; rw [hp]
    · intro hs
      rw [hcm, if_neg hs]
      constructor
      · intro s hp; rw [hp]
      · intro hp; rw [hp]
  · intro p
    exact ⟨le_min (by norm_num) (le_max_left _ _), min_le_left _ _⟩

/-- C7 witness: the seek and jump characterisations applied to concrete
lines `seek 30` and `jump 50%`. -/
theorem commandMode_parsing_witness :
    commandMode ⟨["one.mp4"], 0, false, false, false, false⟩ none none
      "seek 30" =
      ⟨⟨["one.mp4"], 0, false, false, false, false⟩,
        [PCmd.seekRelative 30], some "Seek %.0fs", false, none⟩ ∧
    commandMode ⟨["one.mp4"], 0, false, false, false, false⟩ none none
      "jump 50%" =
      ⟨⟨["one.mp4"], 0, false, false, false, false⟩,
        [PCmd.seekAbsolutePercent (min 100 (max 0 50))],
          some "Jump %.0f%%", false, none⟩ :=
  ⟨(commandMode_parsing.1 ⟨["one.mp4"], 0, false, false, false, false⟩
      none none "seek 30" "30" (by decide) (by decide)).1 30 (by decide),
    ((commandMode_parsing.2.1 ⟨["one.mp4"], 0, false, false, false, false⟩
      none none "jump 50%" "50%" (by decide) (by decide)).1 (by decide)).1 50
      (by decide)⟩

end PP

namespace MPV

theorem step_register_state (s : CState) (w : ℕ) :
    (step s (Act.register w)).1 =
      { s with nextID := s.nextID + 1, pending := s.pending ++ [(s.nextID, w)] } := rfl

theorem step_replyLine_state (s : CState) (id : ℤ) (r : Reply) :
    (step s (Act.replyLine id r)).1 =
      { s with pending := erasePend id s.pending } := by
  simp only [step]
  cases hl : lookupPend id s.pending <;> rfl

theorem step_eventLine_state (s : CState) (name : String) :
    (step s (Act.eventLine name)).1 =
      if s.events.length < eventCap then { s with events := s.events ++ [name] }
      else s := by
  simp only [step]
  split_ifs <;> rfl

theorem step_closeCall_state (s : CState) :
    (step s Act.closeCall).1 =
      if s.closed then s
      else { s with closed := true
                    pending := []
                    connCloseCount := s.connCloseCount + 1 } := by
  simp only [step]
  split_ifs <;> rfl

/-- C8: delivery of an incoming event to the bounded event stream is
non-blocking — on a full buffer the new event is dropped and the buffer
is left unchanged — and reply delivery is completely independent of the
event buffer, so event saturation never stalls a concurrent command's
reply. -/
theorem eventDelivery_nonblocking :
    (∀ (s : CState) (name : String), eventCap ≤ s.events.length →
      step s (Act.eventLine name) = (s, Obs.eventDropped name)) ∧
    (∀ (s : CState) (name : String), s.events.length < eventCap →
      (step s (Act.eventLine name)).1 =
        { s with events := s.events ++ [name] } ∧
      (step s (Act.eventLine name)).2 = Obs.eventQueued name) ∧
    (∀ (s : CState) (name : String),
      (step s (Act.eventLine name)).1.pending = s.pending ∧
      (step s (Act.eventLine name)).1.nextID = s.nextID ∧
      (step s (Act.eventLine name)).1.closed = s.closed) ∧
    (∀ (s : CState) (ev : List String) (id : ℤ) (r : Reply),
      (step { s with events := ev } (Act.replyLine id r)).1.pending =
        (step s (Act.replyLine id r)).1.pending ∧
      (step { s with events := ev } (Act.replyLine id r)).2 =
        (step s (Act.replyLine id r)).2) := by
  refine ⟨?_, ?_, ?_, ?_⟩
  · intro s name h
    simp only [step]
    rw [if_neg (not_lt.mpr h)]
  · intro s name h
    simp only [step]
    rw [if_pos h]
    exact ⟨rfl, rfl⟩
  · intro s name
    simp only [step]
    split_ifs <;> exact ⟨rfl, rfl, rfl⟩
  · intro s ev id r
    simp only [step]
    cases h : lookupPend id s.pending <;> simp [h]

/-- C8 witness: a full buffer of 128 events drops the next event and
leaves the state unchanged, while a reply in the same saturated state is
still delivered. -/
theorem eventDelivery_nonblocking_witness :
    step ⟨2, [(1, 7)], false, 0, List.replicate 128 "e"⟩ (Act.eventLine "x") =
      (⟨2, [(1, 7)], false, 0, List.replicate 128 "e"⟩, Obs.eventDropped "x") ∧
    (step ⟨2, [(1, 7)], false, 0, []⟩ (Act.eventLine "x")).1 =
      ⟨2, [(1, 7)], false, 0, ["x"]⟩ :=
  ⟨eventDelivery_nonblocking.1 ⟨2, [(1, 7)], false, 0, List.replicate 128 "e"⟩
      "x" (by simp [eventCap]),
    (eventDelivery_nonblocking.2.1 ⟨2, [(1, 7)], false, 0, []⟩ "x"
      (by decide)).1⟩

theorem step_closeCount (s : CState) (a : Act)
    (h : s.connCloseCount = if s.closed then 1 else 0) :
    (step s a).1.connCloseCount = if (step s a).1.closed then 1 else 0 := by
  cases a with
  | register w =>
    rw [step_register_state]
    dsimp only
    exact h
  | replyLine id r =>
    rw [step_replyLine_state]
    dsimp only
    exact h
  | eventLine name =>
    rw [step_eventLine_state]
    by_cases he : s.events.length < eventCap
    · rw [if_pos he]
      dsimp only
      exact h
    · rw [if_neg he]
      exact h
  | badLine => exact h
  | closeCall =>
    rw [step_closeCall_state]
    by_cases hc : s.closed = true
    · rw [if_pos hc]
      exact h
    · rw [if_neg hc]
      dsimp only
      rw [h, if_neg hc]
      simp

theorem run_closeCount (acts : List Act) :
    ∀ s : CState, s.connCloseCount = (if s.closed then 1 else 0) →
      (run s acts).1.connCloseCount =
        if (run s acts).1.closed then 1 else 0 := by
  induction acts with
  | nil => intro s h; exact h
  | cons a rest ih =>
    intro s h
    simp only [run]
    exact ih _ (step_closeCount s a h)

/-- C2 counterexample: on a freshly closed transport a subsequent
`CommandData` call fails at the connection write (`conn.Write` on the
closed connection errors at `ipc.go` 173–175), so the error it returns
is the write error, not the `TransportClosed` ("mpv ipc closed") error —
contradicting the claim that post-`Close` commands fail with
`TransportClosed`. -/
theorem command_after_close_not_transportClosed :
    (commandDataImmediate (step initState Act.closeCall).1 5).2 =
      some CmdOutcome.writeFailed ∧
    some CmdOutcome.writeFailed ≠ some CmdOutcome.transportClosed := by
  exact ⟨rfl, by decide⟩

/-- C2 (amended): after `Close`, every subsequently issued command still
fails immediately, but with the write-to-closed-connection error rather
than `TransportClosed` (which is reserved for waiters already blocked in
the reply `select` when closure happens — each of those unblocks with
`TransportClosed`); `Close` itself is idempotent with exactly-once
effect: the first call marks the transport closed and clears all pending
slots, any later call is a no-op, and the underlying connection is
closed at most once along every action sequence. -/
theorem close_idempotent :
    (∀ (s : CState) (w : ℕ), s.closed = true →
      (commandDataImmediate s w).2 = some CmdOutcome.writeFailed) ∧
    (∀ s : CState, s.closed = false →
      (step s Act.closeCall).1.closed = true ∧
      (step s Act.closeCall).1.pending = [] ∧
      (step s Act.closeCall).2 = Obs.closedNow) ∧
    (∀ s : CState, s.closed = true → step s Act.closeCall = (s, Obs.skip)) ∧
    (∀ s : CState, step (step s Act.closeCall).1 Act.closeCall =
      ((step s Act.closeCall).1, Obs.skip)) ∧
    (∀ acts : List Act, (run initState acts).1.connCloseCount ≤ 1) ∧
    (∀ deadlineHit : Bool,
      selectOutcome none true deadlineHit = some CmdOutcome.transportClosed) := by
  refine ⟨?_, ?_, ?_, ?_, ?_, ?_⟩
  · intro s w h
    unfold commandDataImmediate
    dsimp only
    rw [if_pos h]
  · intro s h
    simp only [step]
    rw [if_neg (by simp [h])]
    exact ⟨rfl, rfl, rfl⟩
  · intro s h
    simp only [step]
    rw [if_pos h]
  · intro s
    set t := (step s Act.closeCall).1 with ht
    have hc : t.closed = true := by
      rw [ht, step_closeCall_state]
      split_ifs with h
      · exact h
      · rfl
    simp only [step]
    rw [if_pos hc]
  · intro acts
    have h := run_closeCount acts initState rfl
    rw [h]
    split_ifs <;> norm_num
  · intro deadlineHit; rfl

/-- C2 witness: the amended behaviour at a freshly closed transport
state. -/
theorem close_idempotent_witness :
    (commandDataImmediate ⟨3, [(2, 9)], true, 1, []⟩ 5).2 =
      some CmdOutcome.writeFailed ∧
    (step initState Act.closeCall).1.closed = true ∧
    step ⟨3, [(2, 9)], true, 1, []⟩ Act.closeCall =
      (⟨3, [(2, 9)], true, 1, []⟩, Obs.skip) :=
  ⟨close_idempotent.1 ⟨3, [(2, 9)], true, 1, []⟩ 5 rfl,
    (close_idempotent.2.1 initState rfl).1,
    close_idempotent.2.2.1 ⟨3, [(2, 9)], true, 1, []⟩ rfl⟩

theorem mem_of_getLastQ {α : Type} (l : List α) (x : α) (h : x ∈ l.getLast?) :
    x ∈ l := by
  obtain ⟨hne, rfl⟩ := List.mem_getLast?_eq_getLast h
  exact List.getLast_mem hne

theorem lookupPend_mem {id : ℤ} {w : ℕ} :
    ∀ {l : List (ℤ × ℕ)}, lookupPend id l = some w → (id, w) ∈ l := by
  intro l
  induction l with
  | nil => intro h; cases h
  | cons p rest ih =>
    intro h
    unfold lookupPend at h
    split_ifs at h with hp
    · have hw : p.2 = w := Option.some.inj h
      have hpe : p = (id, w) := by rw [← hp, ← hw]
      rw [← hpe]
      exact List.mem_cons_self p rest
    · exact List.mem_cons_of_mem _ (ih h)

theorem erasePend_subset {id : ℤ} {l : List (ℤ × ℕ)} {q : ℤ × ℕ}
    (h : q ∈ erasePend id l) : q ∈ l :=
  List.mem_of_mem_filter h

theorem map_fst_erasePend_subset {id x : ℤ} {l : List (ℤ × ℕ)}
    (h : x ∈ (erasePend id l).map Prod.fst) : x ∈ l.map Prod.fst := by
  obtain ⟨p, hp, rfl⟩ := List.mem_map.mp h
  exact List.mem_map.mpr ⟨p, erasePend_subset hp, rfl⟩

theorem not_mem_erasePend_fst (id : ℤ) (l : List (ℤ × ℕ)) :
    id ∉ (erasePend id l).map Prod.fst := by
  intro h
  obtain ⟨p, hp, hfst⟩ := List.mem_map.mp h
  have := List.of_mem_filter hp
  simp only [decide_eq_true_eq] at this
  exact this hfst

theorem nodup_erasePend_fst {id : ℤ} {l : List (ℤ × ℕ)}
    (h : (l.map Prod.fst).Nodup) : ((erasePend id l).map Prod.fst).Nodup :=
  List.Nodup.sublist (List.Sublist.map _ (List.filter_sublist l)) h

theorem regEvents_append (os1 os2 : List Obs) :
    regEvents (os1 ++ os2) = regEvents os1 ++ regEvents os2 :=
  List.filterMap_append os1 os2 _

theorem delivEvents_append (os1 os2 : List Obs) :
    delivEvents (os1 ++ os2) = delivEvents os1 ++ delivEvents os2 :=
  List.filterMap_append os1 os2 _

theorem step_replyLine_obs_some (s : CState) (id : ℤ) (r : Reply) (w : ℕ)
    (hl : lookupPend id s.pending = some w) :
    (step s (Act.replyLine id r)).2 = Obs.delivered id w r := by
  simp only [step, hl]

theorem step_replyLine_obs_none (s : CState) (id : ℤ) (r : Reply)
    (hl : lookupPend id s.pending = none) :
    (step s (Act.replyLine id r)).2 = Obs.droppedReply id := by
  simp only [step, hl]

theorem step_eventLine_obs (s : CState) (name : String) :
    (step s (Act.eventLine name)).2 =
      if s.events.length < eventCap then Obs.eventQueued name
      else Obs.eventDropped name := by
  simp only [step]
  split_ifs <;> rfl

theorem step_closeCall_obs (s : CState) :
    (step s Act.closeCall).2 =
      if s.closed then Obs.skip else Obs.closedNow := by
  simp only [step]
  split_ifs <;> rfl

theorem inv_of_same (s s' : CState) (os : List Obs) (o : Obs)
    (hn : s'.nextID = s.nextID) (hp : s'.pending = s.pending)
    (hr : regEvents [o] = []) (hd : delivEvents [o] = [])
    (h : Inv s os) : Inv s' (os ++ [o]) := by
  obtain ⟨h1, h2, h3, h4, h5, h6, h7⟩ := h
  have hre : regEvents (os ++ [o]) = regEvents os := by
    rw [regEvents_append, hr, List.append_nil]
  have hde : delivEvents (os ++ [o]) = delivEvents os := by
    rw [delivEvents_append, hd, List.append_nil]
  have hpi : pendIds s' = pendIds s := by unfold pendIds; rw [hp]
  refine ⟨by rw [hn]; exact h1, by rw [hpi]; exact h2, ?_, ?_, ?_, ?_, ?_⟩
  · intro p hpm
    rw [hp] at hpm
    obtain ⟨ha, hb, hc⟩ := h3 p hpm
    exact ⟨ha, by rw [hn]; exact hb, by rw [hre]; exact hc⟩
  · unfold regIds; rw [hre]; exact h4
  · intro q hq
    rw [hre] at hq
    obtain ⟨ha, hb⟩ := h5 q hq
    exact ⟨ha, by rw [hn]; exact hb⟩
  · intro d hdm
    rw [hde] at hdm
    obtain ⟨ha, hb⟩ := h6 d hdm
    exact ⟨by rw [hre]; exact ha, by rw [hpi]; exact hb⟩
  · unfold delivIds; rw [hde]; exact h7

theorem inv_step (s : CState) (os : List Obs) (a : Act) (h : Inv s os) :
    Inv (step s a).1 (os ++ [(step s a).2]) := by
  cases a with
  | register w =>
    obtain ⟨h1, h2, h3, h4, h5, h6, h7⟩ := h
    have hso : (step s (Act.register w)).2 = Obs.registered s.nextID w := rfl
    rw [step_register_state, hso]
    have hre : regEvents (os ++ [Obs.registered s.nextID w]) =
        regEvents os ++ [(s.nextID, w)] := by rw [regEvents_append]; rfl
    have hde : delivEvents (os ++ [Obs.registered s.nextID w]) =
        delivEvents os := by rw [delivEvents_append]; exact List.append_nil _
    refine ⟨?_, ?_, ?_, ?_, ?_, ?_, ?_⟩
    · show (1 : ℤ) ≤ s.nextID + 1
      omega
    · show ((s.pending ++ [(s.nextID, w)]).map Prod.fst).Nodup
      rw [List.map_append, List.nodup_append]
      refine ⟨h2, List.nodup_singleton _, ?_⟩
      intro x hx hx2
      simp only [List.map_cons, List.map_nil, List.mem_singleton] at hx2
      subst hx2
      obtain ⟨p, hpm, hpf⟩ := List.mem_map.mp hx
      have := (h3 p hpm).2.1
      omega
    · intro p hpm
      rcases List.mem_append.mp hpm with hp1 | hp2
      · obtain ⟨ha, hb, hc⟩ := h3 p hp1
        exact ⟨ha, by dsimp only; omega,
          by rw [hre]; exact List.mem_append_left _ hc⟩
      · simp only [List.mem_singleton] at hp2
        subst hp2
        refine ⟨h1, by dsimp only; omega, ?_⟩
        rw [hre]
        exact List.mem_append_right _ (List.mem_singleton_self _)
    · show List.Chain' (· < ·) (regIds (os ++ [Obs.registered s.nextID w]))
      unfold regIds
      rw [hre, List.map_append]
      apply List.Chain'.append h4 (List.chain'_singleton _)
      intro x hx y hy
      simp only [List.map_cons, List.map_nil, List.head?_cons,
        Option.mem_def, Option.some.injEq] at hy
      subst hy
      have hxm : x ∈ (regEvents os).map Prod.fst := mem_of_getLastQ _ _ hx
      obtain ⟨q, hq, rfl⟩ := List.mem_map.mp hxm
      exact (h5 q hq).2
    · intro q hq
      rw [hre] at hq
      rcases List.mem_append.mp hq with hq1 | hq2
      · obtain ⟨ha, hb⟩ := h5 q hq1
        exact ⟨ha, by dsimp only; omega⟩
      · simp only [List.mem_singleton] at hq2
        subst hq2
        exact ⟨h1, by dsimp only; omega⟩
    · intro d hdm
      rw [hde] at hdm
      obtain ⟨hdr, hdp⟩ := h6 d hdm
      refine ⟨by rw [hre]; exact List.mem_append_left _ hdr, ?_⟩
      show d.1 ∉ (s.pending ++ [(s.nextID, w)]).map Prod.fst
      rw [List.map_append]
      intro hmem
      rcases List.mem_append.mp hmem with hm | hm
      · exact hdp hm
      · simp only [List.map_cons, List.map_nil, List.mem_singleton] at hm
        have := (h5 d hdr).2
        omega
    · show (delivIds (os ++ [Obs.registered s.nextID w])).Nodup
      unfold delivIds
      rw [hde]
      exact h7
  | replyLine id r =>
    cases hl : lookupPend id s.pending with
    | some w =>
      obtain ⟨h1, h2, h3, h4, h5, h6, h7⟩ := h
      rw [step_replyLine_state, step_replyLine_obs_some s id r w hl]
      have hre : regEvents (os ++ [Obs.delivered id w r]) = regEvents os := by
        rw [regEvents_append]; exact List.append_nil _
      have hde : delivEvents (os ++ [Obs.delivered id w r]) =
          delivEvents os ++ [(id, w)] := by rw [delivEvents_append]; rfl
      have hidw : (id, w) ∈ s.pending := lookupPend_mem hl
      have hidp : id ∈ pendIds s := List.mem_map.mpr ⟨(id, w), hidw, rfl⟩
      refine ⟨h1, ?_, ?_, ?_, ?_, ?_, ?_⟩
      · show ((erasePend id s.pending).map Prod.fst).Nodup
        exact nodup_erasePend_fst h2
      · intro p hpm
        have hp' := erasePend_subset hpm
        obtain ⟨ha, hb, hc⟩ := h3 p hp'
        exact ⟨ha, hb, by rw [hre]; exact hc⟩
      · unfold regIds; rw [hre]; exact h4
      · intro q hq
        rw [hre] at hq
        exact h5 q hq
      · intro d hdm
        rw [hde] at hdm
        rcases List.mem_append.mp hdm with hd1 | hd2
        · obtain ⟨hdr, hdp⟩ := h6 d hd1
          refine ⟨by rw [hre]; exact hdr, ?_⟩
          intro hm
          exact hdp (map_fst_erasePend_subset hm)
        · simp only [List.mem_singleton] at hd2
          subst hd2
          refine ⟨by rw [hre]; exact (h3 _ hidw).2.2, ?_⟩
          exact not_mem_erasePend_fst id s.pending
      · show (delivIds (os ++ [Obs.delivered id w r])).Nodup
        unfold delivIds
        rw [hde, List.map_append, List.nodup_append]
        refine ⟨h7, List.nodup_singleton _, ?_⟩
        intro x hx hx2
        simp only [List.map_cons, List.map_nil, List.mem_singleton] at hx2
        subst hx2
        obtain ⟨d, hdm, hdf⟩ := List.mem_map.mp hx
        have := (h6 d hdm).2
        rw [hdf] at this
        exact this hidp
    | none =>
      obtain ⟨h1, h2, h3, h4, h5, h6, h7⟩ := h
      rw [step_replyLine_state, step_replyLine_obs_none s id r hl]
      have hre : regEvents (os ++ [Obs.droppedReply id]) = regEvents os := by
        rw [regEvents_append]; exact List.append_nil _
      have hde : delivEvents (os ++ [Obs.droppedReply id]) = delivEvents os := by
        rw [delivEvents_append]; exact List.append_nil _
      refine ⟨h1, ?_, ?_, ?_, ?_, ?_, ?_⟩
      · exact nodup_erasePend_fst h2
      · intro p hpm
        have hp' := erasePend_subset hpm
        obtain ⟨ha, hb, hc⟩ := h3 p hp'
        exact ⟨ha, hb, by rw [hre]; exact hc⟩
      · unfold regIds; rw [hre]; exact h4
      · intro q hq
        rw [hre] at hq
        exact h5 q hq
      · intro d hdm
        rw [hde] at hdm
        obtain ⟨hdr, hdp⟩ := h6 d hdm
        refine ⟨by rw [hre]; exact hdr, ?_⟩
        intro hm
        exact hdp (map_fst_erasePend_subset hm)
      · unfold delivIds; rw [hde]; exact h7
  | eventLine name =>
    have hs := step_eventLine_state s name
    have ho := step_eventLine_obs s name
    by_cases he : s.events.length < eventCap
    · rw [if_pos he] at hs ho
      exact inv_of_same s _ os _ (by rw [hs]) (by rw [hs])
        (by rw [ho]; rfl) (by rw [ho]; rfl) h
    · rw [if_neg he] at hs ho
      exact inv_of_same s _ os _ (by rw [hs]) (by rw [hs])
        (by rw [ho]; rfl) (by rw [ho]; rfl) h
  | badLine =>
    exact inv_of_same s _ os _ rfl rfl rfl rfl h
  | closeCall =>
    have hs := step_closeCall_state s
    have ho := step_closeCall_obs s
    by_cases hc : s.closed
    · rw [if_pos hc] at hs ho
      exact inv_of_same s _ os _ (by rw [hs]) (by rw [hs])
        (by rw [ho]; rfl) (by rw [ho]; rfl) h
    · rw [if_neg hc] at hs ho
      obtain ⟨h1, h2, h3, h4, h5, h6, h7⟩ := h
      rw [hs, ho]
      have hre : regEvents (os ++ [Obs.closedNow]) = regEvents os := by
        rw [regEvents_append]; exact List.append_nil _
      have hde : delivEvents (os ++ [Obs.closedNow]) = delivEvents os := by
        rw [delivEvents_append]; exact List.append_nil _
      refine ⟨h1, ?_, ?_, ?_, ?_, ?_, ?_⟩
      · show (([] : List (ℤ × ℕ)).map Prod.fst).Nodup
        exact List.nodup_nil
      · intro p hpm
        simp at hpm
      · unfold regIds; rw [hre]; exact h4
      · intro q hq
        rw [hre] at hq
        exact h5 q hq
      · intro d hdm
        rw [hde] at hdm
        obtain ⟨hdr, _⟩ := h6 d hdm
        refine ⟨by rw [hre]; exact hdr, ?_⟩
        show d.1 ∉ ([] : List (ℤ × ℕ)).map Prod.fst
        simp
      · unfold delivIds; rw [hde]; exact h7

theorem inv_initial : Inv initState [] := by
  refine ⟨le_refl 1, List.nodup_nil, ?_, List.chain'_nil, ?_, ?_, List.nodup_nil⟩
  · intro p hp; simp [initState] at hp
  · intro q hq; simp [regEvents] at hq
  · intro d hd; simp [delivEvents] at hd

theorem inv_run (acts : List Act) :
    ∀ (s : CState) (os : List Obs), Inv s os →
      Inv (run s acts).1 (os ++ (run s acts).2) := by
  induction acts with
  | nil =>
    intro s os h
    simp only [run]
    simpa using h
  | cons a rest ih =>
    intro s os h
    simp only [run]
    have h1 := inv_step s os a h
    have h2 := ih (step s a).1 (os ++ [(step s a).2]) h1
    rw [List.append_assoc] at h2
    simpa using h2

/-- C1: along every action sequence of the transport, request
identifiers are positive, unique while outstanding and handed out in
strictly increasing order; every delivered reply goes to the waiter slot
registered under exactly that identifier, at most one reply is ever
delivered per identifier (so each call receives at most its own single
reply), and the pending slot is gone the instant the reply is delivered;
a blocked waiter always resolves as soon as a reply, closure or deadline
is available. -/
theorem command_reply_correlation :
    (∀ acts : List Act,
      1 ≤ (run initState acts).1.nextID ∧
      (∀ p ∈ (run initState acts).1.pending, 1 ≤ p.1) ∧
      (pendIds (run initState acts).1).Nodup ∧
      List.Pairwise (· < ·) (regIds (run initState acts).2) ∧
      (regIds (run initState acts).2).Nodup ∧
      (∀ d ∈ delivEvents (run initState acts).2,
        d ∈ regEvents (run initState acts).2 ∧
        d.1 ∉ pendIds (run initState acts).1 ∧ 1 ≤ d.1) ∧
      (delivIds (run initState acts).2).Nodup) ∧
    (∀ (s : CState) (id : ℤ) (w : ℕ) (r : Reply),
      lookupPend id s.pending = some w →
      (step s (Act.replyLine id r)).2 = Obs.delivered id w r ∧
      id ∉ pendIds (step s (Act.replyLine id r)).1) ∧
    (∀ (ch : Option Reply) (closed dl : Bool),
      ch.isSome = true ∨ closed = true ∨ dl = true →
      (selectOutcome ch closed dl).isSome = true) := by
  refine ⟨?_, ?_, ?_⟩
  · intro acts
    have hinv := inv_run acts initState [] inv_initial
    rw [List.nil_append] at hinv
    obtain ⟨h1, h2, h3, h4, h5, h6, h7⟩ := hinv
    have hpw : List.Pairwise (· < ·) (regIds (run initState acts).2) :=
      List.chain'_iff_pairwise.mp h4
    refine ⟨h1, ?_, h2, hpw, ?_, ?_, h7⟩
    · intro p hp
      exact (h3 p hp).1
    · exact hpw.imp (fun hlt => ne_of_lt hlt)
    · intro d hd
      obtain ⟨ha, hb⟩ := h6 d hd
      exact ⟨ha, hb, (h5 d ha).1⟩
  · intro s id w r hl
    refine ⟨step_replyLine_obs_some s id r w hl, ?_⟩
    rw [step_replyLine_state]
    exact not_mem_erasePend_fst id s.pending
  · intro ch closed dl hor
    cases ch with
    | some r =>
      unfold selectOutcome
      dsimp only
      split_ifs <;> rfl
    | none =>
      rcases hor with hch | hcl | hdl
      · cases hch
      · unfold selectOutcome
        rw [hcl]
        rfl
      · unfold selectOutcome
        dsimp only
        rw [hdl]
        cases closed <;> rfl

/-- C1 witness: the correlation properties evaluated on the concrete
trace "register waiter 7, register waiter 9, reply to id 1, duplicate
reply to id 1": identifiers 1 and 2 are handed out in order, the single
delivery goes to waiter 7 who registered id 1, the slot for id 1 is gone
afterwards, and the duplicate reply delivers nothing. -/
theorem command_reply_correlation_witness :
    List.Pairwise (· < ·) (regIds (run initState [Act.register 7,
      Act.register 9, Act.replyLine 1 ⟨1, "success", ""⟩,
      Act.replyLine 1 ⟨1, "success", ""⟩]).2) ∧
    ((1 : ℤ), (7 : ℕ)) ∈ regEvents (run initState [Act.register 7,
      Act.register 9, Act.replyLine 1 ⟨1, "success", ""⟩,
      Act.replyLine 1 ⟨1, "success", ""⟩]).2 ∧
    (1 : ℤ) ∉ pendIds (run initState [Act.register 7, Act.register 9,
      Act.replyLine 1 ⟨1, "success", ""⟩,
      Act.replyLine 1 ⟨1, "success", ""⟩]).1 ∧
    (delivIds (run initState [Act.register 7, Act.register 9,
      Act.replyLine 1 ⟨1, "success", ""⟩,
      Act.replyLine 1 ⟨1, "success", ""⟩]).2).Nodup ∧
    (step ⟨2, [(1, 7)], false, 0, []⟩
      (Act.replyLine 1 ⟨1, "success", ""⟩)).2 =
      Obs.delivered 1 7 ⟨1, "success", ""⟩ ∧
    (selectOutcome none true false).isSome = true :=
  ⟨(command_reply_correlation.1 [Act.register 7, Act.register 9,
      Act.replyLine 1 ⟨1, "success", ""⟩,
      Act.replyLine 1 ⟨1, "success", ""⟩]).2.2.2.1,
    ((command_reply_correlation.1 [Act.register 7, Act.register 9,
      Act.replyLine 1 ⟨1, "success", ""⟩,
      Act.replyLine 1 ⟨1, "success", ""⟩]).2.2.2.2.2.1 (1, 7) (by decide)).1,
    ((command_reply_correlation.1 [Act.register 7, Act.register 9,
      Act.replyLine 1 ⟨1, "success", ""⟩,
      Act.replyLine 1 ⟨1, "success", ""⟩]).2.2.2.2.2.1 (1, 7) (by decide)).2.1,
    (command_reply_correlation.1 [Act.register 7, Act.register 9,
      Act.replyLine 1 ⟨1, "success", ""⟩,
      Act.replyLine 1 ⟨1, "success", ""⟩]).2.2.2.2.2.2,
    (command_reply_correlation.2.1 ⟨2, [(1, 7)], false, 0, []⟩ 1 7
      ⟨1, "success", ""⟩ rfl).1,
    command_reply_correlation.2.2 none true false (Or.inr (Or.inl rfl))⟩

end MPV

namespace PP

theorem isEmpty_false_of_ne_nil {α : Type} {l : List α} (h : l ≠ []) :
    l.isEmpty = false := by
  cases l with
  | nil => exact absurd rfl h
  | cons a t => rfl

theorem digit_ne_minus {c : Char} (h : isDigitChar c = true) : c ≠ '-' := by
  intro hc
  subst hc
  exact absurd h (by decide)

theorem parseDecAfterSign_int (neg : Bool) (ds rest : List Char)
    (hds : ∀ c ∈ ds, isDigitChar c = true) (hne : ds ≠ [])
    (hrest : ∀ c, rest.head? = some c → isDigitChar c = false ∧ c ≠ '.') :
    parseDecAfterSign neg (ds ++ rest) =
      some (⟨neg, natFromDigitsAux ds 0, 0⟩, rest) := by
  have htd := takeWhile_append_of isDigitChar ds rest hds
    (fun c hc => (hrest c hc).1)
  unfold parseDecAfterSign
  dsimp only
  rw [htd.1, htd.2, if_neg (by simp [isEmpty_false_of_ne_nil hne])]
  cases rest with
  | nil => rfl
  | cons c2 t2 =>
    dsimp only
    rw [if_neg (hrest c2 rfl).2]

theorem parseDecAfterSign_frac (neg : Bool) (ip fp rest : List Char)
    (hip : ∀ c ∈ ip, isDigitChar c = true) (hipne : ip ≠ [])
    (hfp : ∀ c ∈ fp, isDigitChar c = true) (hfpne : fp ≠ [])
    (hrest : ∀ c, rest.head? = some c → isDigitChar c = false ∧ c ≠ '.') :
    parseDecAfterSign neg (ip ++ '.' :: (fp ++ rest)) =
      some (⟨neg, natFromDigitsAux (ip ++ fp) 0, fp.length⟩, rest) := by
  have h1 := takeWhile_append_of isDigitChar ip ('.' :: (fp ++ rest)) hip
    (fun c hc => by
      simp only [List.head?_cons, Option.some.injEq] at hc
      subst hc
      decide)
  have h2 := takeWhile_append_of isDigitChar fp rest hfp
    (fun c hc => (hrest c hc).1)
  unfold parseDecAfterSign
  dsimp only
  rw [h1.1, h1.2, if_neg (by simp [isEmpty_false_of_ne_nil hipne])]
  split
  case _ c2 l3 heq =>
    injection heq with h3 h4
    subst h3
    subst h4
    rw [if_pos rfl]
    rw [h2.1, h2.2, if_neg (by simp [isEmpty_false_of_ne_nil hfpne])]
  case _ heq => cases heq

theorem parseDec_sign (neg : Bool) (a : Char) (t rest : List Char)
    (ha : isDigitChar a = true) :
    parseDec ((if neg then '-' :: (a :: t) else (a :: t)) ++ rest) =
      parseDecAfterSign neg ((a :: t) ++ rest) := by
  cases neg with
  | true =>
    show parseDec ('-' :: ((a :: t) ++ rest)) = _
    simp only [parseDec]
    simp
  | false =>
    show parseDec (a :: (t ++ rest)) = _
    simp only [parseDec]
    rw [if_neg (digit_ne_minus ha)]
    rfl

end PP

namespace PP

theorem parseDec_printDec (d : Dec) (rest : List Char)
    (hrest : ∀ c, rest.head? = some c → isDigitChar c = false ∧ c ≠ '.') :
    parseDec (printDec d ++ rest) = some (d, rest) := by
  obtain ⟨neg, mant, exps⟩ := d
  have hds := natToDigits_all_digits mant
  have hne := natToDigits_ne_nil mant
  unfold printDec
  dsimp only
  by_cases h0 : exps = 0
  · subst h0
    rw [if_pos rfl]
    obtain ⟨a, ta, hta⟩ := List.exists_cons_of_ne_nil hne
    rw [hta]
    rw [parseDec_sign neg a ta rest (hds a (hta ▸ List.mem_cons_self a ta))]
    rw [← hta]
    rw [parseDecAfterSign_int neg _ rest hds hne hrest,
      natFromDigitsAux_natToDigits]
  · by_cases h1 : exps < (natToDigits mant).length
    · rw [if_neg h0, if_pos h1]
      set ds := natToDigits mant with hdsdef
      set k := ds.length - exps with hk
      have hkpos : 0 < k := by omega
      have hklen : k ≤ ds.length := by omega
      have htklen : (ds.take k).length = k := by
        rw [List.length_take]; omega
      have htkne : ds.take k ≠ [] := by
        intro hnil
        rw [hnil] at htklen
        simp at htklen
        omega
      have hdrlen : (ds.drop k).length = exps := by
        rw [List.length_drop]; omega
      have hdrne : ds.drop k ≠ [] := by
        intro hnil
        rw [hnil] at hdrlen
        simp at hdrlen
        omega
      have hassoc : (ds.take k ++ '.' :: ds.drop k) ++ rest =
          ds.take k ++ '.' :: (ds.drop k ++ rest) := by simp
      obtain ⟨a, ta, hta⟩ := List.exists_cons_of_ne_nil htkne
      have hadig : isDigitChar a = true :=
        hds a (List.mem_of_mem_take (hta ▸ List.mem_cons_self a ta))
      have hbody : ds.take k ++ '.' :: ds.drop k = a :: (ta ++ '.' :: ds.drop k) := by
        rw [hta]; simp
      rw [hbody]
      rw [parseDec_sign neg a _ rest hadig]
      have hshape : (a :: (ta ++ '.' :: ds.drop k)) ++ rest =
          ds.take k ++ '.' :: (ds.drop k ++ rest) := by
        rw [← hbody]
        exact hassoc
      rw [hshape]
      rw [parseDecAfterSign_frac neg (ds.take k) (ds.drop k) rest
        (fun c hc => hds c (List.mem_of_mem_take hc)) htkne
        (fun c hc => hds c (List.mem_of_mem_drop hc)) hdrne hrest]
      rw [List.take_append_drop, hdrlen, hdsdef, natFromDigitsAux_natToDigits]
    · rw [if_neg h0, if_neg h1]
      set ds := natToDigits mant with hdsdef
      have hlen : ds.length ≤ exps := by omega
      set z := List.replicate (exps - ds.length) (digitChar 0) with hz
      have hzdig : ∀ c ∈ z, isDigitChar c = true := by
        intro c hc
        rw [hz] at hc
        rw [List.eq_of_mem_replicate hc]
        rfl
      have hfpne : z ++ ds ≠ [] := by
        intro hnil
        rw [List.append_eq_nil] at hnil
        exact hne hnil.2
      have hshape : (digitChar 0 :: '.' :: (z ++ ds)) ++ rest =
          [digitChar 0] ++ '.' :: ((z ++ ds) ++ rest) := by simp
      rw [parseDec_sign neg (digitChar 0) _ rest rfl]
      rw [hshape]
      rw [parseDecAfterSign_frac neg [digitChar 0] (z ++ ds) rest
        (fun c hc => by
          simp only [List.mem_singleton] at hc
          subst hc
          rfl) (by simp)
        (fun c hc => by
          rcases List.mem_append.mp hc with h | h
          · exact hzdig c h
          · exact hds c h) hfpne hrest]
      have hmant : natFromDigitsAux ([digitChar 0] ++ (z ++ ds)) 0 = mant := by
        rw [natFromDigitsAux_append, natFromDigitsAux_append]
        have h00 : natFromDigitsAux [digitChar 0] 0 = 0 := rfl
        rw [h00]
        have hz0 : natFromDigitsAux z 0 = 0 :=
          natFromDigitsAux_zeros z (fun c hc => List.eq_of_mem_replicate (hz ▸ hc))
        rw [hz0, hdsdef, natFromDigitsAux_natToDigits]
      rw [hmant]
      have hlenz : (z ++ ds).length = exps := by
        rw [List.length_append, hz, List.length_replicate]
        omega
      rw [hlenz]

end PP

namespace PP

theorem expectChars_cons (c : Char) (cs : List Char) (x : Char) (xs : List Char)
    (h : x = c) : expectChars (c :: cs) (x :: xs) = expectChars cs xs := by
  simp only [expectChars]
  rw [if_pos h]

theorem expectChars_nil (l : List Char) : expectChars [] l = some l := rfl

theorem notDQ_of_plain {c : Char} (h : plainCharB c = true) : notDQ c = true := by
  simp only [plainCharB, Bool.and_eq_true, decide_eq_true_eq] at h
  simp only [notDQ, decide_eq_true_eq]
  tauto

theorem parseEntry_printEntry (e : String × Dec) (rest : List Char)
    (hkey : ∀ c ∈ e.1.data, plainCharB c = true)
    (hrest : ∀ c, rest.head? = some c → isDigitChar c = false ∧ c ≠ '.') :
    parseEntry (printEntry e ++ rest) = some (e, rest) := by
  obtain ⟨key, d⟩ := e
  have hshape : printEntry (key, d) ++ rest =
      ' ' :: ' ' :: dquoteChar ::
        (key.data ++ dquoteChar :: ':' :: ' ' :: (printDec d ++ rest)) := by
    simp [printEntry]
  rw [hshape]
  unfold parseEntry
  rw [expectChars_cons _ _ _ _ rfl, expectChars_cons _ _ _ _ rfl,
    expectChars_cons _ _ _ _ rfl, expectChars_nil]
  have htk := takeWhile_append_of notDQ key.data
    (dquoteChar :: ':' :: ' ' :: (printDec d ++ rest))
    (fun c hc => notDQ_of_plain (hkey c hc))
    (fun c hc => by
      simp only [List.head?_cons, Option.some.injEq] at hc
      subst hc
      rfl)
  dsimp only
  rw [htk.1, htk.2]
  rw [expectChars_cons _ _ _ _ rfl, expectChars_cons _ _ _ _ rfl,
    expectChars_cons _ _ _ _ rfl, expectChars_nil]
  dsimp only
  rw [parseDec_printDec d rest hrest]

end PP

namespace PP

theorem parseEntriesAux_printEntries (es : List (String × Dec)) :
    ∀ (tail : List Char) (fuel : ℕ), es ≠ [] → es.length ≤ fuel →
    (∀ e ∈ es, ∀ c ∈ e.1.data, plainCharB c = true) →
    (∀ c, tail.head? = some c → isDigitChar c = false ∧ c ≠ '.' ∧ c ≠ ',') →
    parseEntriesAux fuel (printEntries es ++ tail) = some (es, tail) := by
  induction es with
  | nil => intro tail fuel h; exact absurd rfl h
  | cons e es2 ih =>
    intro tail fuel _ hfuel hkeys htail
    cases fuel with
    | zero => simp at hfuel
    | succ f =>
      cases es2 with
      | nil =>
        show parseEntriesAux (f + 1) (printEntry e ++ tail) = some ([e], tail)
        simp only [parseEntriesAux]
        rw [parseEntry_printEntry e tail
          (hkeys e (List.mem_cons_self e []))
          (fun c hc => ⟨(htail c hc).1, (htail c hc).2.1⟩)]
        cases tail with
        | nil => rfl
        | cons c1 t1 =>
          cases t1 with
          | nil => rfl
          | cons c2 t2 =>
            have hc1 := (htail c1 rfl).2.2
            dsimp only
            rw [if_neg (fun hand => hc1 hand.1)]
      | cons f2 es3 =>
        have hshape : printEntries (e :: f2 :: es3) ++ tail =
            printEntry e ++ (',' :: '\n' :: (printEntries (f2 :: es3) ++ tail)) := by
          simp [printEntries]
        rw [hshape]
        simp only [parseEntriesAux]
        rw [parseEntry_printEntry e _
          (hkeys e (List.mem_cons_self e _))
          (fun c hc => by
            simp only [List.head?_cons, Option.some.injEq] at hc
            subst hc
            exact ⟨rfl, by decide⟩)]
        dsimp only
        rw [if_pos ⟨rfl, rfl⟩]
        rw [ih tail f (by simp) (by simp at hfuel ⊢; omega)
          (fun x hx => hkeys x (List.mem_cons_of_mem _ hx)) htail]
        rfl

end PP

namespace PP

theorem charsLt_asymm : ∀ a b : List Char, charsLt a b = true → charsLt b a = false := by
  intro a
  induction a with
  | nil =>
    intro b h
    cases b with
    | nil => cases h
    | cons x xs => rfl
  | cons x xs ih =>
    intro b h
    cases b with
    | nil => cases h
    | cons y ys =>
      unfold charsLt at h ⊢
      by_cases h1 : x.toNat < y.toNat
      · rw [if_pos h1] at h
        rw [if_neg (by omega), if_pos h1]
      · rw [if_neg h1] at h
        by_cases h2 : y.toNat < x.toNat
        · rw [if_pos h2] at h
          cases h
        · rw [if_neg h2] at h
          rw [if_neg h2, if_neg h1]
          exact ih ys h
  
theorem keyLt_asymm (a b : String) (h : keyLt a b = true) : keyLt b a = false :=
  charsLt_asymm a.data b.data h

theorem sortEntries_sorted (m : List (String × Dec))
    (h : List.Chain' (fun a b => keyLt a.1 b.1 = true) m) : sortEntries m = m := by
  induction m with
  | nil => rfl
  | cons e rest ih =>
    show insertEntry e (sortEntries rest) = e :: rest
    rw [ih (List.Chain'.tail h)]
    cases rest with
    | nil => rfl
    | cons f t =>
      have hef : keyLt e.1 f.1 = true := (List.chain'_cons.mp h).1
      show insertEntry e (f :: t) = e :: f :: t
      unfold insertEntry
      rw [if_neg (by rw [keyLt_asymm _ _ hef]; simp)]

theorem length_le_printEntries (es : List (String × Dec)) :
    es.length ≤ (printEntries es).length := by
  induction es with
  | nil => simp [printEntries]
  | cons e rest ih =>
    cases rest with
    | nil => simp [printEntries, printEntry]
    | cons f t =>
      show (e :: f :: t).length ≤ (printEntry e ++ ',' :: '\n' :: printEntries (f :: t)).length
      rw [List.length_append]
      simp only [List.length_cons] at ih ⊢
      have : 1 ≤ (printEntry e).length := by simp [printEntry]
      omega

theorem unmarshalTS_marshalTS (m : List (String × Dec)) (h : WFentries m) :
    unmarshalTS (marshalTS m) = some m := by
  obtain ⟨hsort, hkeys⟩ := h
  unfold marshalTS
  rw [sortEntries_sorted m hsort]
  cases m with
  | nil => rfl
  | cons e rest =>
    rw [if_neg (by simp)]
    unfold unmarshalTS
    have hr : parseEntriesAux ((printEntries (e :: rest) ++ '\n' :: rbraceChar :: []).length + 1)
        (printEntries (e :: rest) ++ '\n' :: rbraceChar :: []) =
        some (e :: rest, '\n' :: rbraceChar :: []) := by
      apply parseEntriesAux_printEntries (e :: rest) _ _ (by simp)
      · have := length_le_printEntries (e :: rest)
        rw [List.length_append]
        omega
      · exact hkeys
      · intro c hc
        simp only [List.head?_cons, Option.some.injEq] at hc
        subst hc
        refine ⟨rfl, by decide, by decide⟩
    rw [if_neg (by
      intro hh
      injection hh with h1 h2
      injection h2 with h3 h4
      exact absurd h3 (by decide))]
    split
    case _ c nl rest2 heq =>
      injection heq with e1 e2
      injection e2 with e3 e4
      subst e1
      subst e3
      subst e4
      rw [if_pos ⟨rfl, rfl⟩, hr]
      dsimp only
      rw [if_pos rfl]
    case _ x heq => exact (heq lbraceChar '\n' _ rfl).elim

end PP

namespace PP

/-- C3: for every well-formed mapping held by a `TimestampStore` with a
non-empty backing path, a successful `Save` followed by a fresh `Load`
from the same path reproduces an equal mapping, and `Save` updates the
target atomically: it writes the serialized map to the sibling `.tmp`
file — leaving the target untouched until that write is complete — and
then renames the temporary file over the target, touching no other
path. -/
theorem timestampStore_save_load_roundtrip :
    ∀ (t : TimestampStore) (fs : FS), t.path ≠ "" → WFentries t.m →
      (TimestampStore.load t.path (t.save fs)).m = t.m ∧
      t.save fs = renameFS (writeFS fs (t.path ++ ".tmp") (marshalTS t.m))
        (t.path ++ ".tmp") t.path ∧
      writeFS fs (t.path ++ ".tmp") (marshalTS t.m) t.path = fs t.path ∧
      t.save fs t.path = some (marshalTS t.m) ∧
      (∀ q, q ≠ t.path → q ≠ t.path ++ ".tmp" → t.save fs q = fs q) := by
  intro t fs hpath hwf
  have htmp : t.path ≠ t.path ++ ".tmp" := by
    intro h
    have hlen := congrArg String.length h
    rw [String.length_append] at hlen
    have : (".tmp" : String).length = 4 := rfl
    omega
  have hsave : t.save fs =
      renameFS (writeFS fs (t.path ++ ".tmp") (marshalTS t.m))
        (t.path ++ ".tmp") t.path := by
    unfold TimestampStore.save
    rw [if_neg hpath]
  have hread : t.save fs t.path = some (marshalTS t.m) := by
    rw [hsave]
    unfold renameFS writeFS
    rw [if_pos rfl, if_pos rfl]
  refine ⟨?_, hsave, ?_, hread, ?_⟩
  · unfold TimestampStore.load
    rw [hread]
    dsimp only
    rw [unmarshalTS_marshalTS t.m hwf]
  · unfold writeFS
    rw [if_neg htmp]
  · intro q hq1 hq2
    rw [hsave]
    unfold renameFS writeFS
    rw [if_neg hq1, if_neg hq2, if_neg hq2]

/-- C3 witness: saving a concrete two-entry store to an empty file system
and loading it back reproduces the mapping, through an actual serialized
file at the target path. -/
theorem timestampStore_save_load_roundtrip_witness :
    (TimestampStore.load "ts.json"
      (TimestampStore.save
        ⟨"ts.json", [("a", ⟨false, 5, 0⟩), ("b", ⟨false, 3, 1⟩)]⟩
        (fun _ => none))).m =
      [("a", ⟨false, 5, 0⟩), ("b", ⟨false, 3, 1⟩)] ∧
    TimestampStore.save
      ⟨"ts.json", [("a", ⟨false, 5, 0⟩), ("b", ⟨false, 3, 1⟩)]⟩
      (fun _ => none) "ts.json" =
      some (marshalTS [("a", ⟨false, 5, 0⟩), ("b", ⟨false, 3, 1⟩)]) :=
  ⟨(timestampStore_save_load_roundtrip
      ⟨"ts.json", [("a", ⟨false, 5, 0⟩), ("b", ⟨false, 3, 1⟩)]⟩
      (fun _ => none) (by decide)
      ⟨List.chain'_cons.mpr ⟨by decide, List.chain'_singleton _⟩, by decide⟩).1,
    (timestampStore_save_load_roundtrip
      ⟨"ts.json", [("a", ⟨false, 5, 0⟩), ("b", ⟨false, 3, 1⟩)]⟩
      (fun _ => none) (by decide)
      ⟨List.chain'_cons.mpr ⟨by decide, List.chain'_singleton _⟩,
        by decide⟩).2.2.2.1⟩

end PP
